import Mathlib

/-!
Verification development for the media-spacesaver-suite coordinator.

The definitions below are a shallow embedding of the coordination subsystem:

* server/app.py     — the job/item/worker state machine and its endpoints
                      (claim, start, progress, complete, fail, cancel-all,
                      delete, ready, reset, stale reconciliation, pruning);
* server/scan.py    — compute_ratio;
* server/state.py   — update_state (read, mutate, persist-on-normal-return);
* worker/worker.py  — within_work_hours.

Timestamps are modelled as integer seconds (the coordinator writes whole-second
ISO timestamps via now_iso and compares them with total_seconds()).  Entity ids
are natural numbers drawn from a freshness counter, standing for the distinct
uuid-based string ids produced by new_id.  Python dict lookups built by a
comprehension keep the last occurrence of a key; linear next(...) scans find
the first.  Both conventions are mirrored explicitly.
-/

namespace MediaSS

/-! List helpers. updateFirstBy mirrors mutating the object found by a Python
next(...) scan; updateLastBy mirrors mutating the object found in a dict that
was built by a comprehension over a list (later entries overwrite earlier). -/

def updateFirstBy (p : α → Bool) (f : α → α) : List α → List α
  | [] => []
  | a :: as => if p a then f a :: as else a :: updateFirstBy p f as

def updateLastBy (p : α → Bool) (f : α → α) : List α → List α
  | [] => []
  | a :: as =>
    if as.any p then a :: updateLastBy p f as
    else if p a then f a :: as else a :: as

/-! Data model (section 3 entities, restricted to the fields the coordinator
operations read or write; probe metadata such as sizeBytes/mtime/fps lives
outside the lifecycle machine and is modelled separately for compute_ratio). -/

inductive JStatus where
  | claimed
  | running
  | done
  | failed
deriving DecidableEq, Repr

inductive IStatus where
  | idle
  | queued
  | processing
  | done
  | failed
deriving DecidableEq, Repr

/-- Python float values as far as math.isfinite can tell them apart: a finite
value (idealized as a rational) or one of the non-finite values. -/
inductive PyFloat where
  | fin (q : ℚ)
  | pinf
  | ninf
  | nan
deriving DecidableEq, Repr

def PyFloat.isFinite : PyFloat → Bool
  | .fin _ => true
  | _ => false

structure Progress where
  pct : Option PyFloat
  etaSec : Option Int
  logTail : Option String
deriving DecidableEq, Repr

def emptyProgress : Progress := { pct := none, etaSec := none, logTail := none }

structure Job where
  id : Nat
  itemId : Nat
  workerId : Nat
  status : JStatus
  claimedAt : Option Int
  startedAt : Option Int
  finishedAt : Option Int
  error : String
  cancelRequested : Bool
  lastUpdateAt : Option Int
  progress : Option Progress
deriving DecidableEq, Repr

structure Item where
  id : Nat
  entryId : Nat
  status : IStatus
  ready : Bool
  lastJobId : Option Nat
  lastError : String
  lastTranscodeAt : Option Int
  transcodeCount : Nat
deriving DecidableEq, Repr

structure Worker where
  id : Nat
  name : String
  status : String
  lastHeartbeatAt : Option Int
deriving DecidableEq, Repr

/-- The coordinator state document (items, jobs, workers), together with the
freshness counter standing for new_id. -/
structure St where
  items : List Item
  jobs : List Job
  workers : List Worker
  nextId : Nat
deriving DecidableEq, Repr

def initSt : St := { items := [], jobs := [], workers := [], nextId := 0 }

def Job.isActive (j : Job) : Bool :=
  j.status == JStatus.claimed || j.status == JStatus.running

/-- HTTP error raised by a handler mutator: 404 or 409. -/
inductive HErr where
  | notFound
  | conflict
deriving DecidableEq, Repr

instance {ε α : Type} [DecidableEq ε] [DecidableEq α] : DecidableEq (Except ε α) :=
  fun x y =>
    match x, y with
    | Except.ok a, Except.ok b =>
      if h : a = b then isTrue (h ▸ rfl) else isFalse (fun hc => h (Except.ok.inj hc))
    | Except.ok _, Except.error _ => isFalse (fun hc => Except.noConfusion hc)
    | Except.error _, Except.ok _ => isFalse (fun hc => Except.noConfusion hc)
    | Except.error e, Except.error f =>
      if h : e = f then isTrue (h ▸ rfl) else isFalse (fun hc => h (Except.error.inj hc))

def findJob (s : St) (jid : Nat) : Option Job :=
  s.jobs.find? (fun j => j.id == jid)

def findItem (s : St) (iid : Nat) : Option Item :=
  s.items.find? (fun it => it.id == iid)

/-! Stale-job reconciliation (app.py cleanup_stale_jobs).  It is always called
with the default thresholds max_age_sec=180 and worker_grace_sec=120. -/

/-- Lookup in workers_by_id, a dict comprehension keyed on worker id. -/
def dictGetWorker (ws : List Worker) (wid : Nat) : Option Worker :=
  ws.reverse.find? (fun w => w.id == wid)

def staleErr (age : Int) : String :=
  "Stale job (no updates for " ++ toString age ++ "s)"

/-- The job's worker exists and its last heartbeat is within the 120s grace. -/
def workerRecentB (now : Int) (ws : List Worker) (j : Job) : Bool :=
  match dictGetWorker ws j.workerId with
  | some w =>
    match w.lastHeartbeatAt with
    | some hb => decide (now - hb < 120)
    | none => false
  | none => false

/-- lastUpdateAt, falling back to claimedAt. -/
def lastTime (j : Job) : Option Int :=
  j.lastUpdateAt.orElse (fun _ => j.claimedAt)

/-- Decides whether cleanup_stale_jobs fails this job, returning the age used
in the error message.  A job is skipped when it is not active, when its
worker heartbeat is younger than 120s, when neither lastUpdateAt nor claimedAt
is available, or when its age is below 180s. -/
def staleCheck (now : Int) (ws : List Worker) (j : Job) : Option Int :=
  if !j.isActive then none
  else if workerRecentB now ws j then none
  else
    match lastTime j with
    | none => none
    | some t => if now - t < 180 then none else some (now - t)

def staleFailJob (now : Int) (age : Int) (j : Job) : Job :=
  { j with status := JStatus.failed, finishedAt := some now, error := staleErr age }

def cleanupJob (now : Int) (ws : List Worker) (j : Job) : Job :=
  match staleCheck now ws j with
  | none => j
  | some age => staleFailJob now age j

def failItemUpd (err : String) (it : Item) : Item :=
  { it with status := IStatus.failed, ready := false, lastError := err }

/-- Item updates performed by the cleanup loop, in job order.  items_by_id is
a dict comprehension, so the last item holding a given id is the one mutated. -/
def cleanupItems (now : Int) (ws : List Worker) : List Job → List Item → List Item
  | [], items => items
  | j :: js, items =>
    match staleCheck now ws j with
    | none => cleanupItems now ws js items
    | some age =>
      cleanupItems now ws js
        (updateLastBy (fun it => it.id == j.itemId) (failItemUpd (staleErr age)) items)

/-- cleanup_stale_jobs: every stale active job is failed with the stale error,
and its item is failed with the error mirrored.  The per-job decision reads
only the job itself and the (unmodified) workers list, so the in-place Python
loop is equivalent to a map on jobs plus the accumulated item updates. -/
def cleanup_stale_jobs (now : Int) (s : St) : St :=
  { s with jobs := s.jobs.map (cleanupJob now s.workers),
           items := cleanupItems now s.workers s.jobs s.items }

/-! Job pruning (app.py prune_old_jobs), always called with its defaults
max_age_hours=24 (86400s) and max_jobs=100 (history cap 100 // 2 = 50). -/

/-- Sort key of a finished job: finishedAt, falling back to claimedAt, then
datetime.min (the UTC epoch second of year 1). -/
def finTime (j : Job) : Int :=
  match j.finishedAt.orElse (fun _ => j.claimedAt) with
  | some t => t
  | none => -62135596800

/-- Stable insertion placing j before the first element whose key is not
larger; together with sortFinishedDesc this computes the same list as the
stable Python sort with reverse=True (newest first, ties in original order). -/
def insertDesc (j : Job) : List Job → List Job
  | [] => [j]
  | a :: as => if finTime a ≤ finTime j then j :: a :: as else a :: insertDesc j as

def sortFinishedDesc : List Job → List Job
  | [] => []
  | j :: js => insertDesc j (sortFinishedDesc js)

/-- One iteration of the retention loop: keep the job when it is younger than
24h and fewer than 100 are kept, or else when fewer than 50 are kept. -/
def keepStep (now : Int) (kept : List Job) (j : Job) : List Job :=
  if now - finTime j < 86400 ∧ kept.length < 100 then kept ++ [j]
  else if kept.length < 50 then kept ++ [j]
  else kept

def prune_old_jobs (now : Int) (s : St) : St :=
  if s.jobs.length ≤ 100 then s
  else
    let active := s.jobs.filter (fun j => j.isActive)
    let finished := s.jobs.filter (fun j => !j.isActive)
    let keptFinished := (sortFinishedDesc finished).foldl (keepStep now) []
    let newJobs := active ++ keptFinished
    if newJobs.length < s.jobs.length then { s with jobs := newJobs } else s

/-- Amended retention policy, written with an explicit running count: walking
the finished jobs newest first, a job is kept when it is younger than 24h and
fewer than 100 jobs have been kept, or, regardless of age, when fewer than 50
jobs have been kept in total. -/
def keepFinishedRef (now : Int) : Nat → List Job → List Job
  | _, [] => []
  | n, j :: js =>
    if (now - finTime j < 86400 ∧ n < 100) ∨ n < 50 then
      j :: keepFinishedRef now (n + 1) js
    else keepFinishedRef now n js

/-- Reference pruning per the amended claim: actives are all retained, the
finished jobs (newest first) pass through keepFinishedRef, and the reduced
list replaces the original only when strictly smaller. -/
def prune_old_jobs_ref (now : Int) (s : St) : St :=
  if s.jobs.length ≤ 100 then s
  else
    let active := s.jobs.filter (fun j => j.isActive)
    let finished := s.jobs.filter (fun j => !j.isActive)
    let newJobs := active ++ keepFinishedRef now 0 (sortFinishedDesc finished)
    if newJobs.length < s.jobs.length then { s with jobs := newJobs } else s

/-! Item administration endpoints.  Each returns the successor state together
with the handler result; an HTTPException is raised before any mutation, so an
erroneous call leaves the state exactly as received. -/

def readyItemUpd (rdy : Bool) (it : Item) : Item :=
  { it with ready := rdy, status := if rdy then IStatus.queued else IStatus.idle }

/-- POST /api/items/{id}/ready. -/
def set_ready (iid : Nat) (rdy : Bool) (s : St) : St × Except HErr Item :=
  match findItem s iid with
  | none => (s, Except.error HErr.notFound)
  | some it =>
    if it.status == IStatus.processing then (s, Except.error HErr.conflict)
    else
      ({ s with items := updateFirstBy (fun x => x.id == iid) (readyItemUpd rdy) s.items },
       Except.ok (readyItemUpd rdy it))

def resetItemUpd (it : Item) : Item :=
  { it with status := IStatus.idle, ready := false, lastError := "" }

/-- POST /api/items/{id}/reset. -/
def reset_item (iid : Nat) (s : St) : St × Except HErr Item :=
  match findItem s iid with
  | none => (s, Except.error HErr.notFound)
  | some it =>
    if it.status == IStatus.processing then (s, Except.error HErr.conflict)
    else
      ({ s with items := updateFirstBy (fun x => x.id == iid) resetItemUpd s.items },
       Except.ok (resetItemUpd it))

/-- DELETE /api/items/{id}. -/
def delete_item (iid : Nat) (s : St) : St × Except HErr Unit :=
  match findItem s iid with
  | none => (s, Except.error HErr.notFound)
  | some it =>
    if it.status == IStatus.processing then (s, Except.error HErr.conflict)
    else
      ({ s with items := s.items.filter (fun x => !(x.id == iid)) }, Except.ok ())

/-- Item creation branch of the scan mutator (app.py scan_entry): a file not
yet in the catalog is appended as a fresh idle item.  The probe metadata
fields it also carries are outside this model. -/
def scanAddItem (entryId : Nat) (s : St) : St :=
  { s with
      items := s.items ++
        [{ id := s.nextId, entryId := entryId, status := IStatus.idle, ready := false,
           lastJobId := none, lastError := "", lastTranscodeAt := none, transcodeCount := 0 }],
      nextId := s.nextId + 1 }

/-! Job protocol endpoints. -/

def startJobUpd (now : Int) (j : Job) : Job :=
  { j with status := JStatus.running, startedAt := some now, lastUpdateAt := some now }

/-- POST /api/jobs/{id}/start.  The handler performs no status check: any job
found by id is set running. -/
def job_start (now : Int) (jid : Nat) (s : St) : St × Except HErr Job :=
  match findJob s jid with
  | none => (s, Except.error HErr.notFound)
  | some j =>
    ({ s with jobs := updateFirstBy (fun x => x.id == jid) (startJobUpd now) s.jobs },
     Except.ok (startJobUpd now j))

def progressOf (j : Job) : Progress :=
  match j.progress with
  | some p => p
  | none => emptyProgress

def truncTail (t : String) : String :=
  if t.length > 200 then String.mk (t.toList.take 200) ++ "..." else t

def progressUpd (now : Int) (pct : Option PyFloat) (eta : Option Int) (tail : Option String)
    (j : Job) : Job :=
  let p0 := progressOf j
  let p1 := match pct with
    | some v => if v.isFinite then { p0 with pct := some v } else p0
    | none => p0
  let p2 := match eta with
    | some e => { p1 with etaSec := some e }
    | none => p1
  let p3 := match tail with
    | some t => { p2 with logTail := some (truncTail t) }
    | none => p2
  { j with progress := some p3, lastUpdateAt := some now }

/-- POST /api/jobs/{id}/progress.  An unknown job id returns None (HTTP 204)
and performs no mutation; otherwise a non-finite pct is dropped, etaSec and
logTail are stored (logTail truncated beyond 200 characters), and
lastUpdateAt is refreshed.  No status check is performed. -/
def job_progress (now : Int) (jid : Nat) (pct : Option PyFloat) (eta : Option Int)
    (tail : Option String) (s : St) : St × Option Job :=
  match findJob s jid with
  | none => (s, none)
  | some j =>
    ({ s with jobs := updateFirstBy (fun x => x.id == jid) (progressUpd now pct eta tail) s.jobs },
     some (progressUpd now pct eta tail j))

def completeJobUpd (now : Int) (j : Job) : Job :=
  { j with status := JStatus.done, finishedAt := some now, lastUpdateAt := some now }

def completeItemUpd (now : Int) (it : Item) : Item :=
  { it with status := IStatus.done, ready := false, lastError := "",
            lastTranscodeAt := some now, transcodeCount := it.transcodeCount + 1 }

/-- POST /api/jobs/{id}/complete.  404 when the job id or its item id is
unknown; otherwise the job is set done and the item refreshed.  The
refresh_item_after_transcode call additionally rewrites probe metadata
(sizeBytes, mtime, fingerprint, scanAt, ratio), none of which belongs to the
lifecycle state modelled here.  No status check is performed. -/
def job_complete (now : Int) (jid : Nat) (s : St) : St × Except HErr Job :=
  match findJob s jid with
  | none => (s, Except.error HErr.notFound)
  | some j =>
    match findItem s j.itemId with
    | none => (s, Except.error HErr.notFound)
    | some _ =>
      ({ s with
           jobs := updateFirstBy (fun x => x.id == jid) (completeJobUpd now) s.jobs,
           items := updateFirstBy (fun x => x.id == j.itemId) (completeItemUpd now) s.items },
       Except.ok (completeJobUpd now j))

def failJobUpd (now : Int) (err : String) (j : Job) : Job :=
  { j with status := JStatus.failed, finishedAt := some now, error := err,
           lastUpdateAt := some now }

def failedItemUpd (err : String) (it : Item) : Item :=
  { it with status := IStatus.failed, lastError := err, ready := false }

/-- POST /api/jobs/{id}/fail.  payload.error or the empty string is mirrored
onto the item.  No status check is performed. -/
def job_fail (now : Int) (jid : Nat) (err : Option String) (s : St) : St × Except HErr Job :=
  match findJob s jid with
  | none => (s, Except.error HErr.notFound)
  | some j =>
    match findItem s j.itemId with
    | none => (s, Except.error HErr.notFound)
    | some _ =>
      let e := err.getD ""
      ({ s with
           jobs := updateFirstBy (fun x => x.id == jid) (failJobUpd now e) s.jobs,
           items := updateFirstBy (fun x => x.id == j.itemId) (failedItemUpd e) s.items },
       Except.ok (failJobUpd now e j))

def cancelUpd (now : Int) (j : Job) : Job :=
  { j with cancelRequested := true,
           progress := some { progressOf j with logTail := some "Cancel requested" },
           lastUpdateAt := some now }

/-- POST /api/jobs/cancel-all: every active job gets cancelRequested, the
"Cancel requested" log tail, and a fresh lastUpdateAt; the count of active
jobs is returned. -/
def cancel_all_jobs (now : Int) (s : St) : St × Nat :=
  ({ s with jobs := s.jobs.map (fun j => if j.isActive then cancelUpd now j else j) },
   (s.jobs.filter (fun j => j.isActive)).length)

def setCancel (x : Job) : Job := { x with cancelRequested := true }

/-- DELETE /api/jobs/{id}.  On an active job only cancelRequested is set and
(ok := false, cancelRequested := true) is returned; otherwise the job is
removed and lastJobId references are detached. -/
def delete_job (jid : Nat) (s : St) : St × Except HErr (Bool × Bool) :=
  match findJob s jid with
  | none => (s, Except.error HErr.notFound)
  | some j =>
    if j.isActive then
      ({ s with jobs := updateFirstBy (fun x => x.id == jid) setCancel s.jobs },
       Except.ok (false, true))
    else
      ({ s with
           jobs := s.jobs.filter (fun x => !(x.id == jid)),
           items := s.items.map (fun it =>
             if it.lastJobId == some jid then { it with lastJobId := none } else it) },
       Except.ok (true, false))

/-! Claiming (app.py claim_job). -/

def heartbeatWorkerUpd (now : Int) (w : Worker) : Worker :=
  { w with lastHeartbeatAt := some now, status := "online" }

structure ClaimRes where
  job : Job
  item : Item
deriving DecidableEq, Repr

/-- Dispatch of the worker upsert on the two lookup results. -/
def claimUpsertCore (now : Int) (wid : Option Nat) (wname : Option String) (s : St) :
    Option Worker → Option Worker → St × Nat
  | some w, _ =>
    let ws' := updateFirstBy (fun x => x.id == w.id) (heartbeatWorkerUpd now) s.workers
    ({ s with workers := ws' }, w.id)
  | none, some w =>
    let ws' := updateFirstBy (fun x => x.name == w.name) (heartbeatWorkerUpd now) s.workers
    ({ s with workers := ws' }, w.id)
  | none, none =>
    let fid := match wid with | some i => i | none => s.nextId
    let fresh : Worker :=
      { id := fid, name := wname.getD "worker", status := "online",
        lastHeartbeatAt := some now }
    ({ s with workers := s.workers ++ [fresh],
              nextId := match wid with | some _ => s.nextId | none => s.nextId + 1 }, fid)

/-- Worker upsert performed by claim: lookup by id first, then by name, else
create a fresh worker (with the supplied id, or a new one).  Returns the
updated state and the id of the caller's worker. -/
def claimUpsert (now : Int) (wid : Option Nat) (wname : Option String) (s : St) : St × Nat :=
  let byId : Option Worker :=
    match wid with
    | some i => s.workers.find? (fun w => w.id == i)
    | none => none
  let byName : Option Worker :=
    match byId, wname with
    | none, some n => s.workers.find? (fun w => w.name == n)
    | _, _ => none
  claimUpsertCore now wid wname s byId byName

/-- The job record created by a successful claim. -/
def mkClaimJob (now : Int) (jobId itemId wkid : Nat) : Job :=
  { id := jobId, itemId := itemId, workerId := wkid, status := JStatus.claimed,
    claimedAt := some now, startedAt := none, finishedAt := none, error := "",
    cancelRequested := false, lastUpdateAt := some now, progress := none }

/-- The item mutation performed by a successful claim. -/
def claimItemUpd (jobId : Nat) (x : Item) : Item :=
  { x with status := IStatus.processing, lastJobId := some jobId, lastError := "" }

/-- POST /api/jobs/claim: run stale reconciliation, upsert the caller worker
(lookup by id first, then by name, else create), then claim the first ready
queued item, creating a fresh claimed job and setting the item processing.
The worker upsert persists even when no work is available. -/
def claim_job (now : Int) (wid : Option Nat) (wname : Option String) (s0 : St) :
    St × Option ClaimRes :=
  let up := claimUpsert now wid wname (cleanup_stale_jobs now s0)
  let s1 := up.1
  match s1.items.find? (fun it => it.ready && it.status == IStatus.queued) with
  | none => (s1, none)
  | some it =>
    let job : Job := mkClaimJob now s1.nextId it.id up.2
    ({ s1 with
         jobs := s1.jobs ++ [job],
         items := updateFirstBy (fun x => x.ready && x.status == IStatus.queued)
                    (claimItemUpd job.id) s1.items,
         nextId := s1.nextId + 1 },
     some { job := job, item := claimItemUpd job.id it })

/-! The event alphabet of the coordinator operations named by the spec
invariants, and reachability by traces of timed events. -/

inductive Ev where
  | scanAdd (entryId : Nat)
  | ready (iid : Nat) (b : Bool)
  | reset (iid : Nat)
  | delItem (iid : Nat)
  | claim (wid : Option Nat) (wname : Option String)
  | start (jid : Nat)
  | progress (jid : Nat) (pct : Option PyFloat) (eta : Option Int) (tail : Option String)
  | complete (jid : Nat)
  | fail (jid : Nat) (err : Option String)
  | cancelAll
  | delJob (jid : Nat)
  | cleanup
  | prune
deriving DecidableEq, Repr

def applyEv (now : Int) (e : Ev) (s : St) : St :=
  match e with
  | .scanAdd eid => scanAddItem eid s
  | .ready iid b => (set_ready iid b s).1
  | .reset iid => (reset_item iid s).1
  | .delItem iid => (delete_item iid s).1
  | .claim wid wname => (claim_job now wid wname s).1
  | .start jid => (job_start now jid s).1
  | .progress jid pct eta tail => (job_progress now jid pct eta tail s).1
  | .complete jid => (job_complete now jid s).1
  | .fail jid err => (job_fail now jid err s).1
  | .cancelAll => (cancel_all_jobs now s).1
  | .delJob jid => (delete_job jid s).1
  | .cleanup => cleanup_stale_jobs now s
  | .prune => prune_old_jobs now s

def applyTrace (s : St) : List (Int × Ev) → St
  | [] => s
  | (t, e) :: tr => applyTrace (applyEv t e s) tr

/-! compute_ratio (scan.py).  Python float arithmetic is idealized as exact
rational arithmetic; both the embedded code and the reference definition from
the spec use the same idealization, so their comparison is unaffected.
Buckets model targetMbPerMinByHeight: integer height keys with rational
megabytes-per-minute values. -/

/-- Fields of an item that compute_ratio reads. -/
structure MediaProbe where
  durationSec : ℚ
  height : ℚ
  sizeBytes : ℚ
deriving DecidableEq, Repr

structure RatioRes where
  targetBytes : Int
  savingsBytes : Int
  savingsPct : ℚ
deriving DecidableEq, Repr

def zeroRatio : RatioRes := { targetBytes := 0, savingsBytes := 0, savingsPct := 0 }

/-- Floor of a rational, computed by floor division of numerator by
denominator so that it evaluates inside the kernel. -/
def ratFloor (q : ℚ) : Int := Int.fdiv q.num (q.den : Int)

/-- Python int(...) truncates toward zero. -/
def pyInt (q : ℚ) : Int := if q < 0 then -ratFloor (-q) else ratFloor q

/-- Python round(x, 4), idealized to exact half-up rounding at 4 decimals; the
tie-breaking convention is shared by both definitions being compared. -/
def round4 (q : ℚ) : ℚ := ((ratFloor (q * 10000 + 1 / 2) : ℚ)) / 10000

def insertAsc (k : Int) : List Int → List Int
  | [] => [k]
  | a :: as => if k ≤ a then k :: a :: as else a :: insertAsc k as

def sortAsc : List Int → List Int
  | [] => []
  | k :: ks => insertAsc k (sortAsc ks)

/-- Bucket selection: the first sorted key at least the height, else the last
sorted key (the loop initializes target_key = sorted_keys[-1]). -/
def pickKey (height : ℚ) (keys : List Int) : Int :=
  match keys.find? (fun (k : Int) => decide (height ≤ (k : ℚ))) with
  | some k => k
  | none =>
    match keys.getLast? with
    | some k => k
    | none => 0

def bucketVal (buckets : List (Int × ℚ)) (k : Int) : ℚ :=
  match buckets.find? (fun b => b.1 == k) with
  | some b => b.2
  | none => 0

def compute_ratio (item : MediaProbe) (buckets : List (Int × ℚ)) : RatioRes :=
  if item.durationSec ≤ 0 ∨ item.sizeBytes ≤ 0 ∨ item.height ≤ 0 then zeroRatio
  else if buckets.isEmpty then zeroRatio
  else
    let targetKey := pickKey item.height (sortAsc (buckets.map (fun b => b.1)))
    let tv := bucketVal buckets targetKey
    if tv = 0 then zeroRatio
    else
      let targetBytes : ℚ := item.durationSec / 60 * tv * 1024 * 1024
      { targetBytes := pyInt targetBytes,
        savingsBytes := pyInt (item.sizeBytes - targetBytes),
        savingsPct := round4 ((item.sizeBytes - targetBytes) / item.sizeBytes) }

/-- Reference definition transcribed from the spec (section 4.2): zeros exactly
when duration, size, or height is non-positive or the target map is empty;
otherwise the bucketed target formula. -/
def compute_ratio_spec (item : MediaProbe) (buckets : List (Int × ℚ)) : RatioRes :=
  if item.durationSec ≤ 0 ∨ item.sizeBytes ≤ 0 ∨ item.height ≤ 0 ∨ buckets.isEmpty then
    zeroRatio
  else
    let targetKey := pickKey item.height (sortAsc (buckets.map (fun b => b.1)))
    let tv := bucketVal buckets targetKey
    let targetBytes : ℚ := item.durationSec / 60 * tv * 1048576
    { targetBytes := pyInt targetBytes,
      savingsBytes := pyInt (item.sizeBytes - targetBytes),
      savingsPct := round4 ((item.sizeBytes - targetBytes) / item.sizeBytes) }

/-- Amended reference: as compute_ratio_spec, but additionally returning zeros
when the selected target value is zero (the code's falsy-value guard). -/
def compute_ratio_spec_amended (item : MediaProbe) (buckets : List (Int × ℚ)) : RatioRes :=
  if item.durationSec ≤ 0 ∨ item.sizeBytes ≤ 0 ∨ item.height ≤ 0 ∨ buckets.isEmpty then
    zeroRatio
  else
    let targetKey := pickKey item.height (sortAsc (buckets.map (fun b => b.1)))
    let tv := bucketVal buckets targetKey
    if tv = 0 then zeroRatio
    else
      let targetBytes : ℚ := item.durationSec / 60 * tv * 1048576
      { targetBytes := pyInt targetBytes,
        savingsBytes := pyInt (item.sizeBytes - targetBytes),
        savingsPct := round4 ((item.sizeBytes - targetBytes) / item.sizeBytes) }

/-! within_work_hours (worker.py).  A window's start and end are "HH:MM"
strings converted to minute-of-day; a missing, empty, or unparsable field is
modelled as none and makes the loop skip the window. -/

structure WorkBlock where
  startMin : Option Nat
  endMin : Option Nat
deriving DecidableEq, Repr

def blockMatches (current : Nat) (b : WorkBlock) : Bool :=
  match b.startMin, b.endMin with
  | some s, some e =>
    if s ≤ e then decide (s ≤ current) && decide (current ≤ e)
    else decide (current ≥ s) || decide (current ≤ e)
  | _, _ => false

def within_work_hours (current : Nat) (blocks : List WorkBlock) : Bool :=
  if blocks.isEmpty then true else blocks.any (blockMatches current)

/-! update_state (state.py): the document is re-read from disk, the mutator is
applied, and the document is persisted only on normal return; an exception
propagates before _write_state_no_lock runs, so the persisted document stays
what it was.  The first component of the mutator result is the in-memory
document it produced (discarded on error). -/

def update_state (mutator : St → St × Except HErr α) (file : St) : St × Except HErr α :=
  match mutator file with
  | (d, Except.ok a) => (d, Except.ok a)
  | (_, Except.error e) => (file, Except.error e)

/-! Invariant vocabulary for the scheduler state machine. -/

def activeItemIds (l : List Job) : List Nat :=
  (l.filter (fun j => j.isActive)).map (fun j => j.itemId)

/-- At most one job per item is in a non-terminal (claimed/running) status. -/
def AtMostOneActive (s : St) : Prop := (activeItemIds s.jobs).Nodup

/-- Every active job points at an existing item that is processing. -/
def ActiveProc (s : St) : Prop :=
  ∀ j ∈ s.jobs, j.isActive = true →
    ∃ it ∈ s.items, it.id = j.itemId ∧ it.status = IStatus.processing

/-- Item ids are pairwise distinct and below the freshness counter. -/
def ItemIdsOk (s : St) : Prop :=
  (s.items.map (fun it => it.id)).Nodup ∧ ∀ it ∈ s.items, it.id < s.nextId

def Inv (s : St) : Prop := AtMostOneActive s ∧ ActiveProc s ∧ ItemIdsOk s

/-- An event is well-addressed when start/complete/fail target a job that is
still non-terminal (the causal ordering the protocol section assumes workers
follow); all other events are unrestricted. -/
def goodEvB (s : St) : Ev → Bool
  | .start jid =>
    (match findJob s jid with | some j => j.isActive | none => true)
  | .complete jid =>
    (match findJob s jid with | some j => j.isActive | none => true)
  | .fail jid _ =>
    (match findJob s jid with | some j => j.isActive | none => true)
  | _ => true

def goodTrace (s : St) : List (Int × Ev) → Bool
  | [] => true
  | (t, e) :: tr => goodEvB s e && goodTrace (applyEv t e s) tr

/-! Concrete fixtures used by witnesses and counterexamples. -/

/-- Trace of coordinator operations violating the one-active-job-per-item
invariant: an item is scanned, queued, claimed (job 2) and completed; it is
re-queued and claimed again (job 3); then a replayed start for the finished
job 2 turns it active again, leaving jobs 2 and 3 both active on item 0. -/
def c1BadTrace : List (Int × Ev) :=
  [(0, Ev.scanAdd 100), (1, Ev.ready 0 true), (2, Ev.claim none (some "w")),
   (3, Ev.complete 2), (4, Ev.ready 0 true), (5, Ev.claim (some 1) none),
   (6, Ev.start 2)]

/-- The same trace without the replayed start: every start/complete/fail in it
targets a non-terminal job. -/
def c1GoodTrace : List (Int × Ev) :=
  [(0, Ev.scanAdd 100), (1, Ev.ready 0 true), (2, Ev.claim none (some "w")),
   (3, Ev.complete 2), (4, Ev.ready 0 true), (5, Ev.claim (some 1) none)]

/-- A terminal (failed) job together with its item. -/
def fixTermJob : Job :=
  { id := 1, itemId := 0, workerId := 9, status := JStatus.failed, claimedAt := some 0,
    startedAt := some 1, finishedAt := some 5, error := "boom", cancelRequested := false,
    lastUpdateAt := some 5, progress := none }

def fixTermItem : Item :=
  { id := 0, entryId := 3, status := IStatus.failed, ready := false, lastJobId := some 1,
    lastError := "boom", lastTranscodeAt := none, transcodeCount := 0 }

def fixTermSt : St :=
  { items := [fixTermItem], jobs := [fixTermJob], workers := [], nextId := 2 }

/-- An active (running) job with no progress record and an old lastUpdateAt. -/
def fixActiveJob : Job :=
  { id := 1, itemId := 0, workerId := 9, status := JStatus.running, claimedAt := some 0,
    startedAt := some 0, finishedAt := none, error := "", cancelRequested := false,
    lastUpdateAt := some 0, progress := none }

def fixActiveSt : St :=
  { items := [], jobs := [fixActiveJob], workers := [], nextId := 2 }

/-- A stale scenario: the worker last heartbeat at 0, the running job last
updated at 10, observed at now = 200. -/
def fixStaleWorker : Worker :=
  { id := 7, name := "w", status := "online", lastHeartbeatAt := some 0 }

def fixStaleItem : Item :=
  { id := 3, entryId := 1, status := IStatus.processing, ready := false, lastJobId := some 4,
    lastError := "", lastTranscodeAt := none, transcodeCount := 0 }

def fixStaleJob : Job :=
  { id := 4, itemId := 3, workerId := 7, status := JStatus.running, claimedAt := some 0,
    startedAt := some 0, finishedAt := none, error := "", cancelRequested := false,
    lastUpdateAt := some 10, progress := none }

def fixStaleSt : St :=
  { items := [fixStaleItem], jobs := [fixStaleJob], workers := [fixStaleWorker], nextId := 8 }

/-- A finished job that ended young (at 1000000, the observation instant). -/
def fixYoungJob (k : Nat) : Job :=
  { id := k, itemId := k, workerId := 0, status := JStatus.done, claimedAt := some 0,
    startedAt := none, finishedAt := some 1000000, error := "", cancelRequested := false,
    lastUpdateAt := none, progress := none }

/-- A finished job that ended long ago (at 10, far beyond 24h before 1000000). -/
def fixOldJob (k : Nat) : Job :=
  { id := 200 + k, itemId := 200 + k, workerId := 0, status := JStatus.failed,
    claimedAt := some 0, startedAt := none, finishedAt := some 10, error := "",
    cancelRequested := false, lastUpdateAt := none, progress := none }

/-- 101 finished jobs: 60 young ones and 41 old ones. -/
def fixPruneSt : St :=
  { items := [], jobs := (List.range 60).map fixYoungJob ++ (List.range 41).map fixOldJob,
    workers := [], nextId := 0 }

/-- Is this finished job older than 24h at observation instant 1000000. -/
def isOldAtMillion (j : Job) : Bool := decide (86400 ≤ 1000000 - finTime j)

end MediaSS

namespace MediaSS

/-! Generic lemmas about the list helpers. -/

theorem updateFirstBy_of_forall_not {α : Type} {p : α → Bool} {f : α → α} {l : List α}
    (h : ∀ x ∈ l, p x = false) : updateFirstBy p f l = l := by
  induction l with
  | nil => rfl
  | cons a as ih =>
    have ha := h a (List.mem_cons_self a as)
    simp [updateFirstBy, ha, ih (fun x hx => h x (List.mem_cons_of_mem a hx))]

theorem find?_decomp {α : Type} {p : α → Bool} {l : List α} {a : α}
    (h : l.find? p = some a) :
    ∃ l1 l2, l = l1 ++ a :: l2 ∧ (∀ x ∈ l1, p x = false) ∧ p a = true ∧
      ∀ f : α → α, updateFirstBy p f l = l1 ++ f a :: l2 := by
  induction l with
  | nil => simp [List.find?] at h
  | cons b bs ih =>
    by_cases hb : p b = true
    · rw [List.find?_cons_of_pos _ hb] at h
      cases h
      refine ⟨[], bs, rfl, ?_, hb, ?_⟩
      · intro x hx
        cases hx
      · intro f
        simp [updateFirstBy, hb]
    · have hb' : p b = false := by simpa using hb
      rw [List.find?_cons_of_neg _ (by simp [hb'])] at h
      obtain ⟨l1, l2, hsplit, hl1, hpa, hupd⟩ := ih h
      refine ⟨b :: l1, l2, by simp [hsplit], ?_, hpa, ?_⟩
      · intro x hx
        rcases List.mem_cons.mp hx with rfl | hx
        · exact hb'
        · exact hl1 x hx
      · intro f
        simp [updateFirstBy, hb', hupd f]

theorem mem_updateFirstBy_of_not {α : Type} {p : α → Bool} {f : α → α} {l : List α} {x : α}
    (hx : x ∈ l) (hpx : p x = false) : x ∈ updateFirstBy p f l := by
  induction l with
  | nil => cases hx
  | cons a as ih =>
    rcases List.mem_cons.mp hx with rfl | hmem
    · simp [updateFirstBy, hpx]
    · by_cases hpa : p a = true
      · simp only [updateFirstBy, hpa, if_true]
        exact List.mem_cons_of_mem _ hmem
      · have hpa' : p a = false := by simpa using hpa
        simp only [updateFirstBy, hpa', Bool.false_eq_true, if_false]
        exact List.mem_cons_of_mem _ (ih hmem)

theorem map_updateFirstBy {α β : Type} {p : α → Bool} {f : α → α} (g : α → β)
    (hf : ∀ x, g (f x) = g x) (l : List α) :
    (updateFirstBy p f l).map g = l.map g := by
  induction l with
  | nil => rfl
  | cons a as ih =>
    by_cases hpa : p a = true
    · simp [updateFirstBy, hpa, hf]
    · have hpa' : p a = false := by simpa using hpa
      simp [updateFirstBy, hpa', ih]

theorem length_updateFirstBy {α : Type} (p : α → Bool) (f : α → α) (l : List α) :
    (updateFirstBy p f l).length = l.length := by
  induction l with
  | nil => rfl
  | cons a as ih =>
    by_cases hpa : p a = true
    · simp [updateFirstBy, hpa]
    · have hpa' : p a = false := by simpa using hpa
      simp [updateFirstBy, hpa', ih]

theorem mem_updateFirstBy {α : Type} {p : α → Bool} {f : α → α} {l : List α} {y : α}
    (hy : y ∈ updateFirstBy p f l) : ∃ x ∈ l, y = x ∨ y = f x := by
  induction l with
  | nil => cases hy
  | cons a as ih =>
    by_cases hpa : p a = true
    · simp only [updateFirstBy, hpa, if_true] at hy
      rcases List.mem_cons.mp hy with rfl | hmem
      · exact ⟨a, List.mem_cons_self a as, Or.inr rfl⟩
      · exact ⟨y, List.mem_cons_of_mem a hmem, Or.inl rfl⟩
    · have hpa' : p a = false := by simpa using hpa
      simp only [updateFirstBy, hpa', Bool.false_eq_true, if_false] at hy
      rcases List.mem_cons.mp hy with rfl | hmem
      · exact ⟨y, List.mem_cons_self y as, Or.inl rfl⟩
      · obtain ⟨x, hxmem, hx⟩ := ih hmem
        exact ⟨x, List.mem_cons_of_mem a hxmem, hx⟩

theorem updateLastBy_of_forall_not {α : Type} {p : α → Bool} {f : α → α} {l : List α}
    (h : ∀ x ∈ l, p x = false) : updateLastBy p f l = l := by
  induction l with
  | nil => rfl
  | cons a as ih =>
    have hany : as.any p = false := by
      rw [Bool.eq_false_iff]
      intro hc
      obtain ⟨x, hx, hpx⟩ := List.any_eq_true.mp hc
      rw [h x (List.mem_cons_of_mem a hx)] at hpx
      cases hpx
    simp [updateLastBy, hany, h a (List.mem_cons_self a as)]

theorem mem_updateLastBy_of_not {α : Type} {p : α → Bool} {f : α → α} {l : List α} {x : α}
    (hx : x ∈ l) (hpx : p x = false) : x ∈ updateLastBy p f l := by
  induction l with
  | nil => cases hx
  | cons a as ih =>
    by_cases hany : as.any p = true
    · simp only [updateLastBy, hany, if_true]
      rcases List.mem_cons.mp hx with rfl | hmem
      · exact List.mem_cons_self _ _
      · exact List.mem_cons_of_mem _ (ih hmem)
    · have hany' : as.any p = false := by simpa using hany
      by_cases hpa : p a = true
      · simp only [updateLastBy, hany', Bool.false_eq_true, if_false, hpa, if_true]
        rcases List.mem_cons.mp hx with rfl | hmem
        · rw [hpx] at hpa; cases hpa
        · exact List.mem_cons_of_mem _ hmem
      · have hpa' : p a = false := by simpa using hpa
        simp only [updateLastBy, hany', Bool.false_eq_true, if_false, hpa']
        exact hx

theorem map_updateLastBy {α β : Type} {p : α → Bool} {f : α → α} (g : α → β)
    (hf : ∀ x, g (f x) = g x) (l : List α) :
    (updateLastBy p f l).map g = l.map g := by
  induction l with
  | nil => rfl
  | cons a as ih =>
    by_cases hany : as.any p = true
    · simp [updateLastBy, hany, ih]
    · have hany' : as.any p = false := by simpa using hany
      by_cases hpa : p a = true
      · simp [updateLastBy, hany', hpa, hf]
      · have hpa' : p a = false := by simpa using hpa
        simp [updateLastBy, hany', hpa']

/-! Lemmas about activeItemIds. -/

theorem activeItemIds_cons (j : Job) (l : List Job) :
    activeItemIds (j :: l) =
      if j.isActive then j.itemId :: activeItemIds l else activeItemIds l := by
  simp only [activeItemIds, List.filter_cons]
  by_cases h : j.isActive = true
  · simp [h]
  · have h' : j.isActive = false := by simpa using h
    simp [h']

theorem activeItemIds_append (l1 l2 : List Job) :
    activeItemIds (l1 ++ l2) = activeItemIds l1 ++ activeItemIds l2 := by
  simp [activeItemIds, List.filter_append]

theorem activeItemIds_sublist {l' l : List Job} (h : List.Sublist l' l) :
    List.Sublist (activeItemIds l') (activeItemIds l) :=
  List.Sublist.map _ (List.Sublist.filter _ h)

theorem activeItemIds_map_pres (f : Job → Job)
    (h : ∀ j, (f j).isActive = j.isActive ∧ (f j).itemId = j.itemId) (l : List Job) :
    activeItemIds (l.map f) = activeItemIds l := by
  induction l with
  | nil => rfl
  | cons a as ih =>
    rw [List.map_cons, activeItemIds_cons, activeItemIds_cons, (h a).1, (h a).2, ih]

theorem activeItemIds_map_deact (f : Job → Job)
    (h : ∀ j, (f j).isActive = true → f j = j) (l : List Job) :
    List.Sublist (activeItemIds (l.map f)) (activeItemIds l) := by
  induction l with
  | nil => exact List.Sublist.refl _
  | cons a as ih =>
    rw [List.map_cons, activeItemIds_cons, activeItemIds_cons]
    by_cases hfa : (f a).isActive = true
    · have heq : f a = a := h a hfa
      rw [heq] at hfa ⊢
      simp only [hfa, if_true]
      exact List.Sublist.cons₂ _ ih
    · have hfa' : (f a).isActive = false := by simpa using hfa
      simp only [hfa', Bool.false_eq_true, if_false]
      by_cases ha : a.isActive = true
      · simp only [ha, if_true]
        exact List.Sublist.cons _ ih
      · have ha' : a.isActive = false := by simpa using ha
        simp only [ha', Bool.false_eq_true, if_false]
        exact ih

theorem mem_activeItemIds {l : List Job} {x : Nat} :
    x ∈ activeItemIds l ↔ ∃ j ∈ l, j.isActive = true ∧ j.itemId = x := by
  simp only [activeItemIds, List.mem_map, List.mem_filter]
  constructor
  · rintro ⟨j, ⟨hj, hact⟩, rfl⟩
    exact ⟨j, hj, hact, rfl⟩
  · rintro ⟨j, hj, hact, rfl⟩
    exact ⟨j, ⟨hj, hact⟩, rfl⟩

/-! Lemmas about stale reconciliation. -/

theorem staleCheck_isActive {now : Int} {ws : List Worker} {j : Job} {age : Int}
    (h : staleCheck now ws j = some age) : j.isActive = true := by
  by_cases hact : j.isActive = true
  · exact hact
  · have : j.isActive = false := by simpa using hact
    simp [staleCheck, this] at h

theorem staleFailJob_not_active (now age : Int) (j : Job) :
    (staleFailJob now age j).isActive = false := rfl

theorem staleFailJob_itemId (now age : Int) (j : Job) :
    (staleFailJob now age j).itemId = j.itemId := rfl

theorem cleanupJob_of_none {now : Int} {ws : List Worker} {j : Job}
    (h : staleCheck now ws j = none) : cleanupJob now ws j = j := by
  simp [cleanupJob, h]

theorem cleanupJob_of_some {now : Int} {ws : List Worker} {j : Job} {age : Int}
    (h : staleCheck now ws j = some age) : cleanupJob now ws j = staleFailJob now age j := by
  simp [cleanupJob, h]

theorem staleCheck_cleanupJob (now : Int) (ws : List Worker) (j : Job) :
    staleCheck now ws (cleanupJob now ws j) = none := by
  cases h : staleCheck now ws j with
  | none => rw [cleanupJob_of_none h]; exact h
  | some age =>
    rw [cleanupJob_of_some h]
    simp [staleCheck, staleFailJob_not_active]

theorem cleanupJob_active_imp_eq {now : Int} {ws : List Worker} {j : Job}
    (h : (cleanupJob now ws j).isActive = true) : cleanupJob now ws j = j := by
  cases hc : staleCheck now ws j with
  | none => exact cleanupJob_of_none hc
  | some age =>
    rw [cleanupJob_of_some hc] at h
    rw [staleFailJob_not_active] at h
    cases h

theorem cleanupJob_idem (now : Int) (ws : List Worker) (j : Job) :
    cleanupJob now ws (cleanupJob now ws j) = cleanupJob now ws j :=
  cleanupJob_of_none (staleCheck_cleanupJob now ws j)

theorem cleanupItems_of_all_none {now : Int} {ws : List Worker} {js : List Job}
    (h : ∀ j ∈ js, staleCheck now ws j = none) (items : List Item) :
    cleanupItems now ws js items = items := by
  induction js with
  | nil => rfl
  | cons j js ih =>
    have hj := h j (List.mem_cons_self j js)
    simp only [cleanupItems, hj]
    exact ih (fun x hx => h x (List.mem_cons_of_mem j hx))

theorem cleanupItems_append (now : Int) (ws : List Worker) (js1 js2 : List Job)
    (items : List Item) :
    cleanupItems now ws (js1 ++ js2) items =
      cleanupItems now ws js2 (cleanupItems now ws js1 items) := by
  induction js1 generalizing items with
  | nil => rfl
  | cons j js ih =>
    cases hc : staleCheck now ws j with
    | none => simp only [List.cons_append, cleanupItems, hc]; exact ih _
    | some age => simp only [List.cons_append, cleanupItems, hc]; exact ih _

theorem cleanupItems_map_id (now : Int) (ws : List Worker) (js : List Job)
    (items : List Item) :
    (cleanupItems now ws js items).map (fun it => it.id) = items.map (fun it => it.id) := by
  induction js generalizing items with
  | nil => rfl
  | cons j js ih =>
    cases hc : staleCheck now ws j with
    | none => simp only [cleanupItems, hc]; exact ih _
    | some age =>
      simp only [cleanupItems, hc]
      rw [ih]
      exact map_updateLastBy (fun it => it.id)
        (fun x => (rfl : (failItemUpd (staleErr age) x).id = x.id)) items

theorem mem_cleanupItems_of_not_touched {now : Int} {ws : List Worker} {js : List Job}
    {items : List Item} {it : Item} (hit : it ∈ items)
    (h : ∀ j ∈ js, ∀ age, staleCheck now ws j = some age → j.itemId ≠ it.id) :
    it ∈ cleanupItems now ws js items := by
  induction js generalizing items with
  | nil => exact hit
  | cons j js ih =>
    cases hc : staleCheck now ws j with
    | none =>
      simp only [cleanupItems, hc]
      exact ih hit (fun x hx => h x (List.mem_cons_of_mem j hx))
    | some age =>
      simp only [cleanupItems, hc]
      have hne : j.itemId ≠ it.id := h j (List.mem_cons_self j js) age hc
      have hfalse : (it.id == j.itemId) = false := by
        simp only [beq_eq_false_iff_ne, ne_eq]
        exact fun hcontra => hne hcontra.symm
      exact ih (mem_updateLastBy_of_not hit hfalse)
        (fun x hx => h x (List.mem_cons_of_mem j hx))

theorem updateLastBy_applies {α : Type} {p : α → Bool} {f : α → α} {l : List α}
    (h : ∃ x ∈ l, p x = true) :
    ∃ x ∈ l, p x = true ∧ f x ∈ updateLastBy p f l := by
  induction l with
  | nil => obtain ⟨x, hx, _⟩ := h; cases hx
  | cons a as ih =>
    by_cases hany : as.any p = true
    · obtain ⟨x, hx, hpx⟩ := List.any_eq_true.mp hany
      obtain ⟨y, hy, hpy, hfy⟩ := ih ⟨x, hx, hpx⟩
      exact ⟨y, List.mem_cons_of_mem a hy, hpy, by
        simp only [updateLastBy, hany, if_true]
        exact List.mem_cons_of_mem a hfy⟩
    · have hany' : as.any p = false := by simpa using hany
      obtain ⟨x, hx, hpx⟩ := h
      rcases List.mem_cons.mp hx with rfl | hmem
      · exact ⟨x, List.mem_cons_self x as, hpx, by
          simp only [updateLastBy, hany', Bool.false_eq_true, if_false, hpx, if_true]
          exact List.mem_cons_self _ _⟩
      · exfalso
        rw [Bool.eq_false_iff] at hany'
        exact hany' (List.any_eq_true.mpr ⟨x, hmem, hpx⟩)

/-- C6: stale-job reconciliation is idempotent: at one instant, with no
intervening events, a second run of cleanup_stale_jobs returns exactly the
state (jobs and items included) produced by the first run. -/
theorem c6_cleanup_stale_idem (now : Int) (s : St) :
    cleanup_stale_jobs now (cleanup_stale_jobs now s) = cleanup_stale_jobs now s := by
  cases s with
  | mk items jobs workers nextId =>
    simp only [cleanup_stale_jobs]
    congr 1
    · exact cleanupItems_of_all_none
        (fun j hj => by
          obtain ⟨j0, _, rfl⟩ := List.mem_map.mp hj
          exact staleCheck_cleanupJob now workers j0) _
    · rw [List.map_map]
      exact List.map_congr_left (fun j _ => cleanupJob_idem now workers j)

/-- C5: for an active job with a usable timestamp, stale reconciliation skips
it when its worker heartbeat is within the 120s grace or its age is below
180s; otherwise it fails the job with finishedAt = now and the stale error,
and fails the job's item with ready cleared and the error mirrored. -/
theorem c5_stale_reconciliation (now : Int) (s : St) (j : Job) (t : Int)
    (hj : j ∈ s.jobs) (hact : j.isActive = true) (ht : lastTime j = some t)
    (hone : AtMostOneActive s) :
    (workerRecentB now s.workers j = true ∨ now - t < 180 →
      cleanupJob now s.workers j = j ∧ j ∈ (cleanup_stale_jobs now s).jobs) ∧
    (workerRecentB now s.workers j = false → 180 ≤ now - t →
      staleFailJob now (now - t) j ∈ (cleanup_stale_jobs now s).jobs ∧
      (staleFailJob now (now - t) j).status = JStatus.failed ∧
      (staleFailJob now (now - t) j).finishedAt = some now ∧
      (staleFailJob now (now - t) j).error = staleErr (now - t) ∧
      ∀ it0 ∈ s.items, it0.id = j.itemId →
        ∃ it' ∈ (cleanup_stale_jobs now s).items,
          it'.id = j.itemId ∧ it'.status = IStatus.failed ∧ it'.ready = false ∧
          it'.lastError = staleErr (now - t)) := by
  constructor
  · intro hskip
    have hnone : staleCheck now s.workers j = none := by
      rcases hskip with hwr | hyoung
      · simp [staleCheck, hact, hwr]
      · by_cases hwr : workerRecentB now s.workers j = true
        · simp [staleCheck, hact, hwr]
        · have hwr' : workerRecentB now s.workers j = false := by simpa using hwr
          simp [staleCheck, hact, hwr', ht, hyoung]
    refine ⟨cleanupJob_of_none hnone, ?_⟩
    show j ∈ (cleanup_stale_jobs now s).jobs
    have : cleanupJob now s.workers j ∈ (cleanup_stale_jobs now s).jobs :=
      List.mem_map_of_mem _ hj
    rwa [cleanupJob_of_none hnone] at this
  · intro hwr hage
    have hsome : staleCheck now s.workers j = some (now - t) := by
      have hnotlt : ¬(now - t < 180) := not_lt.mpr hage
      simp [staleCheck, hact, hwr, ht, hnotlt]
    have hmemjob : staleFailJob now (now - t) j ∈ (cleanup_stale_jobs now s).jobs := by
      have : cleanupJob now s.workers j ∈ (cleanup_stale_jobs now s).jobs :=
        List.mem_map_of_mem _ hj
      rwa [cleanupJob_of_some hsome] at this
    refine ⟨hmemjob, rfl, rfl, rfl, ?_⟩
    intro it0 hit0 hid0
    -- decompose the job list around j and show no other stale job touches
    -- this item id (two active jobs for one item would violate hone)
    obtain ⟨l1, l2, heq⟩ := List.append_of_mem hj
    have hids : activeItemIds (l1 ++ j :: l2) =
        activeItemIds l1 ++ j.itemId :: activeItemIds l2 := by
      rw [activeItemIds_append, activeItemIds_cons, hact]
      simp
    have hnd : (activeItemIds l1 ++ j.itemId :: activeItemIds l2).Nodup := by
      have h1 : (activeItemIds s.jobs).Nodup := hone
      rw [heq, hids] at h1
      exact h1
    rw [List.nodup_append] at hnd
    have hnotin1 : j.itemId ∉ activeItemIds l1 := fun hmem =>
      hnd.2.2 hmem (List.mem_cons_self _ _)
    have hnotin2 : j.itemId ∉ activeItemIds l2 := (List.nodup_cons.mp hnd.2.1).1
    have huntouched : ∀ l' : List Job, j.itemId ∉ activeItemIds l' →
        ∀ j2 ∈ l', ∀ b, staleCheck now s.workers j2 = some b → j2.itemId ≠ it0.id := by
      intro l' hnot j2 hj2 b hb hcontra
      exact hnot (mem_activeItemIds.mpr
        ⟨j2, hj2, staleCheck_isActive hb, by rw [hcontra, hid0]⟩)
    have hitems : (cleanup_stale_jobs now s).items =
        cleanupItems now s.workers l2
          (updateLastBy (fun it => it.id == j.itemId) (failItemUpd (staleErr (now - t)))
            (cleanupItems now s.workers l1 s.items)) := by
      have h0 : (cleanup_stale_jobs now s).items = cleanupItems now s.workers s.jobs s.items :=
        rfl
      rw [h0, heq, cleanupItems_append]
      simp only [cleanupItems, hsome]
    have hphase1 : it0 ∈ cleanupItems now s.workers l1 s.items :=
      mem_cleanupItems_of_not_touched hit0 (huntouched l1 hnotin1)
    have happ := updateLastBy_applies (p := fun it => it.id == j.itemId)
      (f := failItemUpd (staleErr (now - t)))
      ⟨it0, hphase1, by
        show (it0.id == j.itemId) = true
        rw [hid0]
        exact beq_self_eq_true _⟩
    obtain ⟨it1, hit1, hp1, hf1⟩ := happ
    have hid1 : it1.id = j.itemId := by simpa using hp1
    have hfid : (failItemUpd (staleErr (now - t)) it1).id = j.itemId := hid1
    refine ⟨failItemUpd (staleErr (now - t)) it1, ?_, hfid, rfl, rfl, rfl⟩
    rw [hitems]
    exact mem_cleanupItems_of_not_touched hf1
      (fun j2 hj2 b hb => by
        rw [hfid]
        intro hcontra
        exact hnotin2 (mem_activeItemIds.mpr ⟨j2, hj2, staleCheck_isActive hb, hcontra⟩))

/-- Witness for C5 at a concrete stale scenario: heartbeat 200s old, job
updated 190s ago; the theorem's hypotheses hold and its stale branch applies. -/
theorem c5_witness :
    (fixStaleJob ∈ fixStaleSt.jobs ∧ fixStaleJob.isActive = true ∧
      lastTime fixStaleJob = some 10 ∧ AtMostOneActive fixStaleSt) ∧
    (workerRecentB 200 fixStaleSt.workers fixStaleJob = false → 180 ≤ (200 : Int) - 10 →
      staleFailJob 200 ((200 : Int) - 10) fixStaleJob ∈ (cleanup_stale_jobs 200 fixStaleSt).jobs ∧
      (staleFailJob 200 ((200 : Int) - 10) fixStaleJob).status = JStatus.failed ∧
      (staleFailJob 200 ((200 : Int) - 10) fixStaleJob).finishedAt = some 200 ∧
      (staleFailJob 200 ((200 : Int) - 10) fixStaleJob).error = staleErr ((200 : Int) - 10) ∧
      ∀ it0 ∈ fixStaleSt.items, it0.id = fixStaleJob.itemId →
        ∃ it' ∈ (cleanup_stale_jobs 200 fixStaleSt).items,
          it'.id = fixStaleJob.itemId ∧ it'.status = IStatus.failed ∧ it'.ready = false ∧
          it'.lastError = staleErr ((200 : Int) - 10)) :=
  ⟨⟨by decide, by decide, by decide, by show (activeItemIds fixStaleSt.jobs).Nodup; decide⟩,
    (c5_stale_reconciliation 200 fixStaleSt fixStaleJob 10 (by decide) (by decide) (by decide)
      (by show (activeItemIds fixStaleSt.jobs).Nodup; decide)).2⟩

/-- Iff-characterization of a single window check. -/
theorem blockMatches_iff (current : Nat) (b : WorkBlock) :
    blockMatches current b = true ↔
      ∃ s e, b.startMin = some s ∧ b.endMin = some e ∧
        ((s ≤ e ∧ s ≤ current ∧ current ≤ e) ∨ (s > e ∧ (current ≥ s ∨ current ≤ e))) := by
  cases hs : b.startMin with
  | none => simp [blockMatches, hs]
  | some s =>
    cases he : b.endMin with
    | none => simp [blockMatches, hs, he]
    | some e =>
      by_cases hse : s ≤ e
      · have : ¬ s > e := not_lt.mpr hse
        simp [blockMatches, hs, he, hse, this]
      · have hgt : s > e := not_le.mp hse
        simp [blockMatches, hs, he, hse, hgt]

/-- C8: the worker is in-hours exactly when the window list is empty or some
window with usable bounds contains the current minute-of-day (windows that
wrap midnight match on either side of it); in particular a 22:00-06:00 window
contains 23:30 and 05:30 and excludes 07:00. -/
theorem c8_within_work_hours :
    (∀ (current : Nat) (blocks : List WorkBlock),
      within_work_hours current blocks = true ↔
        blocks = [] ∨ ∃ b ∈ blocks, ∃ s e, b.startMin = some s ∧ b.endMin = some e ∧
          ((s ≤ e ∧ s ≤ current ∧ current ≤ e) ∨ (s > e ∧ (current ≥ s ∨ current ≤ e)))) ∧
    within_work_hours 1410 [{ startMin := some 1320, endMin := some 360 }] = true ∧
    within_work_hours 330 [{ startMin := some 1320, endMin := some 360 }] = true ∧
    within_work_hours 420 [{ startMin := some 1320, endMin := some 360 }] = false := by
  refine ⟨?_, by decide, by decide, by decide⟩
  intro current blocks
  unfold within_work_hours
  by_cases hemp : blocks.isEmpty
  · simp [hemp, List.isEmpty_iff.mp hemp]
  · have hne : ¬ blocks = [] := fun h => hemp (by simp [h])
    simp only [hemp, Bool.false_eq_true, if_false, hne, false_or]
    rw [List.any_eq_true]
    constructor
    · rintro ⟨b, hb, hmatch⟩
      exact ⟨b, hb, (blockMatches_iff current b).mp hmatch⟩
    · rintro ⟨b, hb, hcond⟩
      exact ⟨b, hb, (blockMatches_iff current b).mpr hcond⟩

/-- C10: update_state persists the document produced by the mutator only on
normal return; a mutator that raises (modelled as an error result) leaves the
stored document unchanged, so every request refused with 404/409 leaves the
persisted state exactly as it was. -/
theorem c10_update_state_atomic {α : Type} (m : St → St × Except HErr α) (file : St)
    (e : HErr) (h : (m file).2 = Except.error e) : (update_state m file).1 = file := by
  rcases hmf : m file with ⟨d, r⟩
  cases r with
  | ok a =>
    rw [hmf] at h
    cases h
  | error e' =>
    unfold update_state
    rw [hmf]

/-- Witness for C10: setting ready on an unknown item id fails with 404 and
the persisted document is untouched. -/
theorem c10_witness :
    (set_ready 0 true initSt).2 = Except.error HErr.notFound ∧
    (update_state (set_ready 0 true) initSt).1 = initSt :=
  ⟨by decide,
    c10_update_state_atomic (set_ready 0 true) initSt HErr.notFound (by decide)⟩

theorem ratFloor_intCast (k : Int) : ratFloor (k : ℚ) = k := by
  unfold ratFloor
  rw [Rat.num_intCast, Rat.den_intCast]
  simp

theorem pyInt_intCast (k : Int) : pyInt (k : ℚ) = k := by
  unfold pyInt
  by_cases h : (k : ℚ) < 0
  · rw [if_pos h, ← Int.cast_neg, ratFloor_intCast, neg_neg]
  · rw [if_neg h, ratFloor_intCast]

/-- C4 counterexample: with a target map assigning 0 MB/min to height 480,
compute_ratio returns all zeros through its falsy-value guard, while the
claim's reference definition computes targetBytes = 0 and
savingsBytes = sizeBytes. -/
theorem c4_counterexample :
    compute_ratio { durationSec := 60, height := 480, sizeBytes := 1048576 } [(480, 0)] =
      zeroRatio ∧
    (compute_ratio_spec { durationSec := 60, height := 480, sizeBytes := 1048576 }
        [(480, 0)]).savingsBytes = 1048576 ∧
    compute_ratio { durationSec := 60, height := 480, sizeBytes := 1048576 } [(480, 0)] ≠
      compute_ratio_spec { durationSec := 60, height := 480, sizeBytes := 1048576 }
        [(480, 0)] := by
  have h1 : compute_ratio { durationSec := 60, height := 480, sizeBytes := 1048576 }
      [(480, 0)] = zeroRatio := by
    unfold compute_ratio
    norm_num [bucketVal, pickKey, sortAsc, insertAsc]
  have h2 : (compute_ratio_spec { durationSec := 60, height := 480, sizeBytes := 1048576 }
      [(480, 0)]).savingsBytes = 1048576 := by
    unfold compute_ratio_spec
    norm_num [bucketVal, pickKey, sortAsc, insertAsc]
    rw [show ((1048576 : ℚ)) = ((1048576 : Int) : ℚ) by norm_num, pyInt_intCast]
  refine ⟨h1, h2, fun hcontra => ?_⟩
  rw [← hcontra, h1] at h2
  simp [zeroRatio] at h2

/-- C4 amended: compute_ratio equals the reference definition extended with
the zero-target-value guard. -/
theorem c4_amended (item : MediaProbe) (buckets : List (Int × ℚ)) :
    compute_ratio item buckets = compute_ratio_spec_amended item buckets := by
  unfold compute_ratio compute_ratio_spec_amended
  by_cases ha : item.durationSec ≤ 0
  · simp [ha]
  · by_cases hb : item.sizeBytes ≤ 0
    · simp [ha, hb]
    · by_cases hc : item.height ≤ 0
      · simp [ha, hb, hc]
      · by_cases h2 : buckets.isEmpty
        · simp [ha, hb, hc, h2, List.isEmpty_iff.mp h2]
        · have hne : ¬(buckets = []) := by
            intro hcontra
            rw [hcontra] at h2
            exact h2 rfl
          have hmul : ∀ q : ℚ, q * 1024 * 1024 = q * 1048576 := fun q => by ring
          simp [ha, hb, hc, h2, hne, hmul]

/-- C2 counterexample: the coordinator happily rewrites this terminal (failed)
job: a progress event stores etaSec and refreshes lastUpdateAt instead of
being dropped, a complete event flips the failed job to done, a start event
sets it running again, and a fail event overwrites its error and timestamps,
none of them refused. -/
theorem c2_counterexample :
    ((job_progress 50 1 none (some 30) none fixTermSt).2 =
        some (progressUpd 50 none (some 30) none fixTermJob) ∧
      progressUpd 50 none (some 30) none fixTermJob ≠ fixTermJob ∧
      (job_progress 50 1 none (some 30) none fixTermSt).1 ≠ fixTermSt) ∧
    ((job_complete 60 1 fixTermSt).2 = Except.ok (completeJobUpd 60 fixTermJob) ∧
      (completeJobUpd 60 fixTermJob).status = JStatus.done ∧
      (job_complete 60 1 fixTermSt).1.jobs = [completeJobUpd 60 fixTermJob]) ∧
    ((job_start 80 1 fixTermSt).2 = Except.ok (startJobUpd 80 fixTermJob) ∧
      (startJobUpd 80 fixTermJob).status = JStatus.running ∧
      (job_start 80 1 fixTermSt).1.jobs = [startJobUpd 80 fixTermJob]) ∧
    ((job_fail 70 1 (some "again") fixTermSt).2 =
        Except.ok (failJobUpd 70 "again" fixTermJob) ∧
      failJobUpd 70 "again" fixTermJob ≠ fixTermJob ∧
      (job_fail 70 1 (some "again") fixTermSt).1.jobs =
        [failJobUpd 70 "again" fixTermJob]) := by
  refine ⟨⟨by decide, by decide, by decide⟩, ⟨by decide, by decide, by decide⟩,
    ⟨by decide, by decide, by decide⟩, ⟨by decide, by decide, by decide⟩⟩

/-- C2 amended: terminal jobs are not immutable: progress, start, complete and
fail apply to any known job regardless of its current status (complete and
fail additionally require the job's item to exist).  The state is left
unmodified exactly in the refusal cases: an unknown job id (progress dropped
silently with a 204; start, complete and fail refused with a 404), and a
complete or fail on a known job whose item id matches no item (refused with a
404). -/
theorem c2_amended (now : Int) (s : St) (jid : Nat) (pct : Option PyFloat)
    (eta : Option Int) (tail : Option String) (err : Option String) :
    (findJob s jid = none →
      job_progress now jid pct eta tail s = (s, none) ∧
      job_start now jid s = (s, Except.error HErr.notFound) ∧
      job_complete now jid s = (s, Except.error HErr.notFound) ∧
      job_fail now jid err s = (s, Except.error HErr.notFound)) ∧
    (∀ j, findJob s jid = some j →
      (job_progress now jid pct eta tail s).2 = some (progressUpd now pct eta tail j) ∧
      (job_start now jid s).2 = Except.ok (startJobUpd now j) ∧
      (findItem s j.itemId = none →
        job_complete now jid s = (s, Except.error HErr.notFound) ∧
        job_fail now jid err s = (s, Except.error HErr.notFound)) ∧
      (∀ it, findItem s j.itemId = some it →
        (job_complete now jid s).2 = Except.ok (completeJobUpd now j) ∧
        (job_fail now jid err s).2 = Except.ok (failJobUpd now (err.getD "") j))) := by
  constructor
  · intro h
    refine ⟨?_, ?_, ?_, ?_⟩ <;> simp [job_progress, job_start, job_complete, job_fail, h]
  · intro j hj
    refine ⟨?_, ?_, ?_, ?_⟩
    · simp [job_progress, hj]
    · simp [job_start, hj]
    · intro hit
      exact ⟨by simp [job_complete, hj, hit], by simp [job_fail, hj, hit]⟩
    · intro it hit
      exact ⟨by simp [job_complete, hj, hit], by simp [job_fail, hj, hit]⟩

/-- Witness for C2 amended: job id 99 is unknown in fixTermSt and progress on
it is a no-op; job 1 of fixActiveSt is known and start rewrites it, while its
item id 0 matches no item, so complete on it is refused without
modification. -/
theorem c2_witness :
    (findJob fixTermSt 99 = none ∧
      job_progress 50 99 none none none fixTermSt = (fixTermSt, none)) ∧
    (findJob fixActiveSt 1 = some fixActiveJob ∧
      (job_start 80 1 fixActiveSt).2 = Except.ok (startJobUpd 80 fixActiveJob) ∧
      findItem fixActiveSt fixActiveJob.itemId = none ∧
      job_complete 80 1 fixActiveSt = (fixActiveSt, Except.error HErr.notFound)) :=
  ⟨⟨by decide, ((c2_amended 50 fixTermSt 99 none none none none).1 (by decide)).1⟩,
   ⟨by decide,
    ((c2_amended 80 fixActiveSt 1 none none none none).2 fixActiveJob (by decide)).2.1,
    by decide,
    (((c2_amended 80 fixActiveSt 1 none none none none).2 fixActiveJob
      (by decide)).2.2.1 (by decide)).1⟩⟩

/-- C9 counterexample: DELETE on this active job sets cancelRequested and
returns the not-removed payload, but writes no "Cancel requested" log tail
and leaves lastUpdateAt at its old value (the handler never consults the
clock), contradicting the claim that every cancelRequested write also writes
the log tail and advances lastUpdateAt. -/
theorem c9_counterexample :
    (delete_job 1 fixActiveSt).2 = Except.ok (false, true) ∧
    (delete_job 1 fixActiveSt).1.jobs = [setCancel fixActiveJob] ∧
    fixActiveJob.cancelRequested = false ∧
    (setCancel fixActiveJob).cancelRequested = true ∧
    (setCancel fixActiveJob).progress = none ∧
    (setCancel fixActiveJob).lastUpdateAt = some 0 := by
  refine ⟨by decide, by decide, by decide, by decide, by decide, by decide⟩

/-- C9 amended: cancel-all writes cancelRequested, the "Cancel requested" log
tail and a fresh lastUpdateAt on every active job (inactive jobs are left
alone); DELETE on an active job returns ok = false with cancelRequested = true
and only sets the cancelRequested flag, removing nothing and touching neither
progress nor lastUpdateAt. -/
theorem c9_amended (now : Int) (s : St) :
    (∀ j ∈ s.jobs, j.isActive = true →
      cancelUpd now j ∈ (cancel_all_jobs now s).1.jobs ∧
      (cancelUpd now j).cancelRequested = true ∧
      (progressOf (cancelUpd now j)).logTail = some "Cancel requested" ∧
      (cancelUpd now j).lastUpdateAt = some now) ∧
    (∀ j ∈ s.jobs, j.isActive = false → j ∈ (cancel_all_jobs now s).1.jobs) ∧
    (∀ jid j, findJob s jid = some j → j.isActive = true →
      (delete_job jid s).2 = Except.ok (false, true) ∧
      setCancel j ∈ (delete_job jid s).1.jobs ∧
      (setCancel j).progress = j.progress ∧ (setCancel j).lastUpdateAt = j.lastUpdateAt ∧
      (delete_job jid s).1.jobs.length = s.jobs.length ∧
      (delete_job jid s).1.items = s.items) := by
  refine ⟨?_, ?_, ?_⟩
  · intro j hj hact
    refine ⟨?_, rfl, rfl, rfl⟩
    have hmem := List.mem_map_of_mem (fun j => if j.isActive then cancelUpd now j else j) hj
    simp only [hact, if_true] at hmem
    simpa [cancel_all_jobs] using hmem
  · intro j hj hinact
    have hmem := List.mem_map_of_mem (fun j => if j.isActive then cancelUpd now j else j) hj
    simp [hinact] at hmem
    simpa [cancel_all_jobs] using hmem
  · intro jid j hfind hact
    obtain ⟨l1, l2, hsplit, hl1, hpj, hupd⟩ := find?_decomp hfind
    have hstate : delete_job jid s =
        ({ s with jobs := updateFirstBy (fun x => x.id == jid) setCancel s.jobs },
         Except.ok (false, true)) := by
      simp only [delete_job, hfind, hact, if_true]
    refine ⟨by rw [hstate], ?_, rfl, rfl, ?_, by rw [hstate]⟩
    · rw [hstate]
      show setCancel j ∈ updateFirstBy (fun x => x.id == jid) setCancel s.jobs
      rw [hupd setCancel]
      exact List.mem_append_right _ (List.mem_cons_self _ _)
    · rw [hstate]
      exact length_updateFirstBy _ _ _

set_option maxRecDepth 100000 in
/-- C3 counterexample: 101 finished jobs, 60 young (finished at the
observation instant) and 41 older than 24h.  The claim retains the young ones
and additionally up to 50 old ones (41 ≤ 50, so all of them); the code keeps
only the 60 young jobs and drops every old one, because its history branch
only fires while fewer than 50 jobs are kept in total. -/
theorem c3_counterexample :
    fixPruneSt.jobs.length = 101 ∧
    (fixPruneSt.jobs.filter (fun j => !j.isActive)).length = 101 ∧
    (fixPruneSt.jobs.filter isOldAtMillion).length = 41 ∧
    ((prune_old_jobs 1000000 fixPruneSt).jobs.filter isOldAtMillion).length = 0 ∧
    (prune_old_jobs 1000000 fixPruneSt).jobs.length = 60 := by
  decide

theorem foldl_keepStep (now : Int) (l : List Job) : ∀ acc : List Job,
    l.foldl (keepStep now) acc = acc ++ keepFinishedRef now acc.length l := by
  induction l with
  | nil =>
    intro acc
    simp [keepFinishedRef]
  | cons j js ih =>
    intro acc
    by_cases h1 : now - finTime j < 86400 ∧ acc.length < 100
    · have hstep : keepStep now acc j = acc ++ [j] := by simp [keepStep, h1]
      have hcond : (now - finTime j < 86400 ∧ acc.length < 100) ∨ acc.length < 50 :=
        Or.inl h1
      rw [List.foldl_cons, hstep, ih, List.append_assoc]
      congr 1
      simp [keepFinishedRef, hcond, List.length_append]
    · by_cases h2 : acc.length < 50
      · have hstep : keepStep now acc j = acc ++ [j] := by simp [keepStep, h1, h2]
        have hcond : (now - finTime j < 86400 ∧ acc.length < 100) ∨ acc.length < 50 :=
          Or.inr h2
        rw [List.foldl_cons, hstep, ih, List.append_assoc]
        congr 1
        simp [keepFinishedRef, hcond, List.length_append]
      · have hstep : keepStep now acc j = acc := by simp [keepStep, h1, h2]
        have hcond : ¬((now - finTime j < 86400 ∧ acc.length < 100) ∨ acc.length < 50) :=
          not_or.mpr ⟨h1, h2⟩
        rw [List.foldl_cons, hstep, ih]
        congr 1
        simp [keepFinishedRef, hcond]

/-- C3 amended: prune_old_jobs implements the amended policy exactly: actives
are all retained; the finished jobs, newest first, are kept while younger
than 24h and fewer than 100 kept, or, regardless of age, while fewer than 50
have been kept in total; the reduced list is committed when strictly
smaller. -/
theorem c3_amended (now : Int) (s : St) :
    prune_old_jobs now s = prune_old_jobs_ref now s := by
  unfold prune_old_jobs prune_old_jobs_ref
  simp only [foldl_keepStep, List.nil_append, List.length_nil]

/-- C7: a progress event for an unknown job id returns the 204 sentinel and
leaves the state unchanged; on a known job, a non-finite pct is dropped while
keeping the stored pct, a supplied etaSec is stored, a supplied logTail is
stored (truncated to its first 200 characters plus "..." when longer than
200), and lastUpdateAt is refreshed to now. -/
theorem c7_job_progress (now : Int) (s : St) (jid : Nat) (pct : Option PyFloat)
    (eta : Option Int) (tail : Option String) :
    (findJob s jid = none → job_progress now jid pct eta tail s = (s, none)) ∧
    (∀ j, findJob s jid = some j →
      (job_progress now jid pct eta tail s).2 = some (progressUpd now pct eta tail j) ∧
      (∀ p, pct = some p → p.isFinite = false →
        (progressOf (progressUpd now pct eta tail j)).pct = (progressOf j).pct) ∧
      (∀ e, eta = some e →
        (progressOf (progressUpd now pct eta tail j)).etaSec = some e) ∧
      (∀ t, tail = some t → 200 < t.length →
        (progressOf (progressUpd now pct eta tail j)).logTail =
          some (String.mk (t.toList.take 200) ++ "...")) ∧
      (∀ t, tail = some t → t.length ≤ 200 →
        (progressOf (progressUpd now pct eta tail j)).logTail = some t) ∧
      (progressUpd now pct eta tail j).lastUpdateAt = some now) := by
  constructor
  · intro h
    simp [job_progress, h]
  · intro j hj
    refine ⟨by simp [job_progress, hj], ?_, ?_, ?_, ?_, rfl⟩
    · intro p hp hfin
      subst hp
      cases eta <;> cases tail <;> simp [progressUpd, progressOf, hfin]
    · intro e he
      subst he
      rcases pct with _ | v
      · cases tail <;> simp [progressUpd, progressOf]
      · by_cases hf : v.isFinite = true
        · cases tail <;> simp [progressUpd, progressOf, hf]
        · have hf' : v.isFinite = false := by simpa using hf
          cases tail <;> simp [progressUpd, progressOf, hf']
    · intro t ht hlen
      subst ht
      have htr : truncTail t = String.mk (t.toList.take 200) ++ "..." := by
        simp [truncTail, hlen]
      rcases pct with _ | v
      · cases eta <;> simp [progressUpd, progressOf, htr]
      · by_cases hf : v.isFinite = true
        · cases eta <;> simp [progressUpd, progressOf, hf, htr]
        · have hf' : v.isFinite = false := by simpa using hf
          cases eta <;> simp [progressUpd, progressOf, hf', htr]
    · intro t ht hlen
      subst ht
      have hnot : ¬(200 < t.length) := not_lt.mpr hlen
      have htr : truncTail t = t := by simp [truncTail, hnot]
      rcases pct with _ | v
      · cases eta <;> simp [progressUpd, progressOf, htr]
      · by_cases hf : v.isFinite = true
        · cases eta <;> simp [progressUpd, progressOf, hf, htr]
        · have hf' : v.isFinite = false := by simpa using hf
          cases eta <;> simp [progressUpd, progressOf, hf', htr]

/-- Witness for C7: a progress event with non-finite pct, an etaSec and a
short logTail on the known job of fixTermSt. -/
theorem c7_witness :
    findJob fixTermSt 1 = some fixTermJob ∧
    (job_progress 9 1 (some PyFloat.nan) (some 30) (some "abc") fixTermSt).2 =
      some (progressUpd 9 (some PyFloat.nan) (some 30) (some "abc") fixTermJob) ∧
    (progressOf (progressUpd 9 (some PyFloat.nan) (some 30) (some "abc") fixTermJob)).pct =
      (progressOf fixTermJob).pct ∧
    (progressOf (progressUpd 9 (some PyFloat.nan) (some 30) (some "abc")
      fixTermJob)).etaSec = some 30 ∧
    (progressOf (progressUpd 9 (some PyFloat.nan) (some 30) (some "abc")
      fixTermJob)).logTail = some "abc" ∧
    (progressUpd 9 (some PyFloat.nan) (some 30) (some "abc") fixTermJob).lastUpdateAt =
      some 9 := by
  have h := (c7_job_progress 9 fixTermSt 1 (some PyFloat.nan) (some 30)
    (some "abc")).2 fixTermJob (by decide)
  exact ⟨by decide, h.1, h.2.1 PyFloat.nan rfl rfl, h.2.2.1 30 rfl,
    h.2.2.2.2.1 "abc" rfl (by decide), h.2.2.2.2.2⟩

/-! Invariant machinery for C1: preservation of Inv by every coordinator
operation, under the protocol assumption that start/complete/fail are only
invoked on non-terminal jobs. -/

theorem same_id_eq {s : St} (hI : (s.items.map (fun it => it.id)).Nodup)
    {x y : Item} (hx : x ∈ s.items) (hy : y ∈ s.items) (h : x.id = y.id) : x = y :=
  List.inj_on_of_nodup_map hI hx hy h

theorem active_inj {s : St} (hA : AtMostOneActive s) :
    ∀ x ∈ s.jobs, ∀ y ∈ s.jobs, x.isActive = true → y.isActive = true →
      x.itemId = y.itemId → x = y := by
  intro x hx y hy hax hay h
  have hA' : ((s.jobs.filter (fun j => j.isActive)).map (fun j => j.itemId)).Nodup := hA
  exact List.inj_on_of_nodup_map hA'
    (List.mem_filter.mpr ⟨hx, hax⟩) (List.mem_filter.mpr ⟨hy, hay⟩) h

theorem activeItemIds_eq_nil {l : List Job} (h : ∀ j ∈ l, j.isActive = false) :
    activeItemIds l = [] := by
  induction l with
  | nil => rfl
  | cons a as ih =>
    rw [activeItemIds_cons, h a (List.mem_cons_self a as)]
    simp only [Bool.false_eq_true, if_false]
    exact ih (fun x hx => h x (List.mem_cons_of_mem a hx))

theorem activeItemIds_filter_active (l : List Job) :
    activeItemIds (l.filter (fun j => j.isActive)) = activeItemIds l := by
  unfold activeItemIds
  rw [List.filter_filter]
  simp [Bool.and_self]

theorem mem_insertDesc {j x : Job} {l : List Job} (h : x ∈ insertDesc j l) :
    x = j ∨ x ∈ l := by
  induction l with
  | nil =>
    rw [insertDesc] at h
    exact Or.inl (List.mem_singleton.mp h)
  | cons a as ih =>
    unfold insertDesc at h
    by_cases hc : finTime a ≤ finTime j
    · rw [if_pos hc] at h
      rcases List.mem_cons.mp h with rfl | h2
      · exact Or.inl rfl
      · exact Or.inr h2
    · rw [if_neg hc] at h
      rcases List.mem_cons.mp h with rfl | h2
      · exact Or.inr (List.mem_cons_self _ _)
      · rcases ih h2 with h3 | h3
        · exact Or.inl h3
        · exact Or.inr (List.mem_cons_of_mem a h3)

theorem mem_sortFinishedDesc {x : Job} {l : List Job} (h : x ∈ sortFinishedDesc l) :
    x ∈ l := by
  induction l with
  | nil =>
    rw [sortFinishedDesc] at h
    cases h
  | cons a as ih =>
    unfold sortFinishedDesc at h
    rcases mem_insertDesc h with rfl | h2
    · exact List.mem_cons_self _ _
    · exact List.mem_cons_of_mem a (ih h2)

theorem mem_foldl_keepStep {now : Int} {x : Job} : ∀ {l acc : List Job},
    x ∈ l.foldl (keepStep now) acc → x ∈ acc ∨ x ∈ l := by
  intro l
  induction l with
  | nil => intro acc h; exact Or.inl h
  | cons j js ih =>
    intro acc h
    rw [List.foldl_cons] at h
    rcases ih h with h2 | h2
    · unfold keepStep at h2
      by_cases hc1 : now - finTime j < 86400 ∧ acc.length < 100
      · rw [if_pos hc1] at h2
        rcases List.mem_append.mp h2 with h3 | h3
        · exact Or.inl h3
        · rcases List.mem_singleton.mp h3 with rfl
          exact Or.inr (List.mem_cons_self _ _)
      · rw [if_neg hc1] at h2
        by_cases hc2 : acc.length < 50
        · rw [if_pos hc2] at h2
          rcases List.mem_append.mp h2 with h3 | h3
          · exact Or.inl h3
          · rcases List.mem_singleton.mp h3 with rfl
            exact Or.inr (List.mem_cons_self _ _)
        · rw [if_neg hc2] at h2
          exact Or.inl h2
    · exact Or.inr (List.mem_cons_of_mem j h2)

theorem claimUpsertCore_items (now : Int) (wid : Option Nat) (wname : Option String)
    (s : St) (b1 b2 : Option Worker) :
    (claimUpsertCore now wid wname s b1 b2).1.items = s.items := by
  cases b1 <;> cases b2 <;> rfl

theorem claimUpsertCore_jobs (now : Int) (wid : Option Nat) (wname : Option String)
    (s : St) (b1 b2 : Option Worker) :
    (claimUpsertCore now wid wname s b1 b2).1.jobs = s.jobs := by
  cases b1 <;> cases b2 <;> rfl

theorem claimUpsertCore_nextId_ge (now : Int) (wid : Option Nat) (wname : Option String)
    (s : St) (b1 b2 : Option Worker) :
    s.nextId ≤ (claimUpsertCore now wid wname s b1 b2).1.nextId := by
  cases b1 with
  | some w => cases b2 <;> exact Nat.le_refl _
  | none =>
    cases b2 with
    | some w => exact Nat.le_refl _
    | none =>
      cases wid with
      | some i => exact Nat.le_refl _
      | none => exact Nat.le_succ _

theorem claimUpsert_items (now : Int) (wid : Option Nat) (wname : Option String) (s : St) :
    (claimUpsert now wid wname s).1.items = s.items :=
  claimUpsertCore_items now wid wname s _ _

theorem claimUpsert_jobs (now : Int) (wid : Option Nat) (wname : Option String) (s : St) :
    (claimUpsert now wid wname s).1.jobs = s.jobs :=
  claimUpsertCore_jobs now wid wname s _ _

theorem claimUpsert_nextId_ge (now : Int) (wid : Option Nat) (wname : Option String) (s : St) :
    s.nextId ≤ (claimUpsert now wid wname s).1.nextId :=
  claimUpsertCore_nextId_ge now wid wname s _ _

/-- Witness for C9 amended at the concrete active job. -/
theorem c9_witness :
    findJob fixActiveSt 1 = some fixActiveJob ∧
    ((delete_job 1 fixActiveSt).2 = Except.ok (false, true) ∧
      setCancel fixActiveJob ∈ (delete_job 1 fixActiveSt).1.jobs ∧
      (setCancel fixActiveJob).progress = fixActiveJob.progress ∧
      (setCancel fixActiveJob).lastUpdateAt = fixActiveJob.lastUpdateAt ∧
      (delete_job 1 fixActiveSt).1.jobs.length = fixActiveSt.jobs.length ∧
      (delete_job 1 fixActiveSt).1.items = fixActiveSt.items) :=
  ⟨by decide, (c9_amended 100 fixActiveSt).2.2 1 fixActiveJob (by decide) (by decide)⟩

theorem activeItemIds_middle (l1 l2 : List Job) {j : Job} (h : j.isActive = true) :
    activeItemIds (l1 ++ j :: l2) = activeItemIds l1 ++ j.itemId :: activeItemIds l2 := by
  rw [activeItemIds_append, activeItemIds_cons, h]
  simp

theorem activeItemIds_middle_inactive (l1 l2 : List Job) {j : Job} (h : j.isActive = false) :
    activeItemIds (l1 ++ j :: l2) = activeItemIds l1 ++ activeItemIds l2 := by
  rw [activeItemIds_append, activeItemIds_cons, h]
  simp

theorem activeItemIds_updateFirstBy_pres {p : Job → Bool} {f : Job → Job}
    (hf : ∀ x, (f x).isActive = x.isActive ∧ (f x).itemId = x.itemId) (l : List Job) :
    activeItemIds (updateFirstBy p f l) = activeItemIds l := by
  induction l with
  | nil => rfl
  | cons a as ih =>
    by_cases hpa : p a = true
    · simp only [updateFirstBy, hpa, if_true]
      rw [activeItemIds_cons, activeItemIds_cons, (hf a).1, (hf a).2]
    · have hpa' : p a = false := by simpa using hpa
      simp only [updateFirstBy, hpa', Bool.false_eq_true, if_false]
      rw [activeItemIds_cons, activeItemIds_cons, ih]

theorem activeProc_updateFirstBy_jobs {s : St} (hP : ActiveProc s) {p : Job → Bool}
    {f : Job → Job}
    (hf : ∀ x, (f x).isActive = x.isActive ∧ (f x).itemId = x.itemId) :
    ∀ j ∈ updateFirstBy p f s.jobs, j.isActive = true →
      ∃ it ∈ s.items, it.id = j.itemId ∧ it.status = IStatus.processing := by
  intro j hj hact
  obtain ⟨x, hx, hxy⟩ := mem_updateFirstBy hj
  rcases hxy with rfl | rfl
  · exact hP _ hx hact
  · have hxact : x.isActive = true := by rw [← (hf x).1]; exact hact
    obtain ⟨it, hit, hid, hst⟩ := hP x hx hxact
    refine ⟨it, hit, ?_, hst⟩
    rw [(hf x).2]
    exact hid

/-- Inv only constrains items, jobs, and the counter; it survives a change of
workers and any increase of the counter. -/
theorem inv_of_fields {s s' : St} (hitems : s'.items = s.items) (hjobs : s'.jobs = s.jobs)
    (hnext : s.nextId ≤ s'.nextId) (hInv : Inv s) : Inv s' := by
  obtain ⟨hA, hP, hN, hB⟩ := hInv
  refine ⟨?_, ?_, ?_, ?_⟩
  · show (activeItemIds s'.jobs).Nodup
    rw [hjobs]
    exact hA
  · intro j hj hact
    rw [hjobs] at hj
    rw [hitems]
    exact hP j hj hact
  · show ((s'.items.map (fun it : Item => it.id)).Nodup)
    rw [hitems]
    exact hN
  · intro it hit
    rw [hitems] at hit
    exact Nat.lt_of_lt_of_le (hB it hit) hnext

theorem inv_scanAdd (eid : Nat) (s : St) (hInv : Inv s) : Inv (scanAddItem eid s) := by
  obtain ⟨hA, hP, hN, hB⟩ := hInv
  refine ⟨hA, ?_, ?_, ?_⟩
  · intro j hj hact
    obtain ⟨it, hit, hid, hst⟩ := hP j hj hact
    exact ⟨it, List.mem_append_left _ hit, hid, hst⟩
  · show ((s.items ++ [_]).map (fun it : Item => it.id)).Nodup
    rw [List.map_append]
    refine List.Nodup.append hN (List.nodup_singleton _) ?_
    intro a ha hb
    obtain ⟨it, hit, rfl⟩ := List.mem_map.mp ha
    simp only [List.map_cons, List.map_nil, List.mem_singleton] at hb
    exact absurd hb (Nat.ne_of_lt (hB it hit))
  · intro it hit
    rcases List.mem_append.mp hit with h | h
    · exact Nat.lt_succ_of_lt (hB it h)
    · rcases List.mem_singleton.mp h with rfl
      exact Nat.lt_succ_self _

theorem inv_item_update (s : St) (iid : Nat) (f : Item → Item)
    (hf_id : ∀ x, (f x).id = x.id) (hInv : Inv s) {it : Item}
    (hfind : findItem s iid = some it) (hnp : it.status ≠ IStatus.processing) :
    Inv { s with items := updateFirstBy (fun x => x.id == iid) f s.items } := by
  obtain ⟨hA, hP, hN, hB⟩ := hInv
  have hit_mem : it ∈ s.items := List.mem_of_find?_eq_some hfind
  have hit_id : it.id = iid := by simpa using List.find?_some hfind
  refine ⟨hA, ?_, ?_, ?_⟩
  · intro j hj hact
    obtain ⟨itw, hitw, hid, hst⟩ := hP j hj hact
    have hpw : (itw.id == iid) = false := by
      rw [beq_eq_false_iff_ne]
      intro hcontra
      have heq : itw = it := same_id_eq hN hitw hit_mem (by rw [hcontra, hit_id])
      rw [heq] at hst
      exact hnp hst
    exact ⟨itw, mem_updateFirstBy_of_not hitw hpw, hid, hst⟩
  · show ((updateFirstBy (fun x => x.id == iid) f s.items).map (fun it : Item => it.id)).Nodup
    rw [map_updateFirstBy (fun it : Item => it.id) hf_id]
    exact hN
  · intro x hx
    obtain ⟨y, hy, hxy⟩ := mem_updateFirstBy hx
    rcases hxy with rfl | rfl
    · exact hB _ hy
    · rw [hf_id]
      exact hB _ hy

theorem inv_set_ready (iid : Nat) (rdy : Bool) (s : St) (hInv : Inv s) :
    Inv (set_ready iid rdy s).1 := by
  cases hfind : findItem s iid with
  | none =>
    simp only [set_ready, hfind]
    exact hInv
  | some it =>
    by_cases hproc : (it.status == IStatus.processing) = true
    · simp only [set_ready, hfind, hproc, if_true]
      exact hInv
    · have hproc' : (it.status == IStatus.processing) = false := by simpa using hproc
      simp only [set_ready, hfind, hproc', Bool.false_eq_true, if_false]
      exact inv_item_update s iid (readyItemUpd rdy) (fun x => rfl) hInv hfind
        (by simpa using hproc')

theorem inv_reset_item (iid : Nat) (s : St) (hInv : Inv s) : Inv (reset_item iid s).1 := by
  cases hfind : findItem s iid with
  | none =>
    simp only [reset_item, hfind]
    exact hInv
  | some it =>
    by_cases hproc : (it.status == IStatus.processing) = true
    · simp only [reset_item, hfind, hproc, if_true]
      exact hInv
    · have hproc' : (it.status == IStatus.processing) = false := by simpa using hproc
      simp only [reset_item, hfind, hproc', Bool.false_eq_true, if_false]
      exact inv_item_update s iid resetItemUpd (fun x => rfl) hInv hfind
        (by simpa using hproc')

theorem inv_delete_item (iid : Nat) (s : St) (hInv : Inv s) : Inv (delete_item iid s).1 := by
  cases hfind : findItem s iid with
  | none =>
    simp only [delete_item, hfind]
    exact hInv
  | some it =>
    by_cases hproc : (it.status == IStatus.processing) = true
    · simp only [delete_item, hfind, hproc, if_true]
      exact hInv
    · have hproc' : (it.status == IStatus.processing) = false := by simpa using hproc
      simp only [delete_item, hfind, hproc', Bool.false_eq_true, if_false]
      obtain ⟨hA, hP, hN, hB⟩ := hInv
      have hit_mem : it ∈ s.items := List.mem_of_find?_eq_some hfind
      have hit_id : it.id = iid := by simpa using List.find?_some hfind
      have hnp : it.status ≠ IStatus.processing := by simpa using hproc'
      refine ⟨hA, ?_, ?_, ?_⟩
      · intro j hj hact
        obtain ⟨itw, hitw, hid, hst⟩ := hP j hj hact
        refine ⟨itw, List.mem_filter.mpr ⟨hitw, ?_⟩, hid, hst⟩
        rw [Bool.not_eq_true', beq_eq_false_iff_ne]
        intro hcontra
        have heq : itw = it := same_id_eq hN hitw hit_mem (by rw [hcontra, hit_id])
        rw [heq] at hst
        exact hnp hst
      · exact List.Nodup.sublist (List.Sublist.map _ (List.filter_sublist _)) hN
      · intro x hx
        exact hB x (List.mem_filter.mp hx).1

theorem inv_job_start (now : Int) (jid : Nat) (s : St) (hInv : Inv s)
    (hg : goodEvB s (Ev.start jid) = true) : Inv (job_start now jid s).1 := by
  cases hfind : findJob s jid with
  | none =>
    simp only [job_start, hfind]
    exact hInv
  | some j =>
    have hact : j.isActive = true := by simpa [goodEvB, hfind] using hg
    simp only [job_start, hfind]
    obtain ⟨hA, hP, hN, hB⟩ := hInv
    obtain ⟨l1, l2, hsplit, hl1, hpj, hupd⟩ := find?_decomp hfind
    have horig : activeItemIds s.jobs = activeItemIds l1 ++ j.itemId :: activeItemIds l2 := by
      rw [hsplit]
      exact activeItemIds_middle l1 l2 hact
    refine ⟨?_, ?_, hN, hB⟩
    · show (activeItemIds (updateFirstBy (fun x => x.id == jid) (startJobUpd now) s.jobs)).Nodup
      rw [hupd (startJobUpd now),
        activeItemIds_middle l1 l2 (show (startJobUpd now j).isActive = true from rfl)]
      have hA' : (activeItemIds s.jobs).Nodup := hA
      rw [horig] at hA'
      exact hA'
    · intro x hx hactx
      rw [hupd (startJobUpd now)] at hx
      rcases List.mem_append.mp hx with h1 | h1
      · exact hP x (by rw [hsplit]; exact List.mem_append_left _ h1) hactx
      · rcases List.mem_cons.mp h1 with rfl | h2
        · obtain ⟨it, hit, hid, hst⟩ := hP j
            (by rw [hsplit]; exact List.mem_append_right _ (List.mem_cons_self _ _)) hact
          exact ⟨it, hit, hid, hst⟩
        · exact hP x (by rw [hsplit]; exact List.mem_append_right _ (List.mem_cons_of_mem _ h2))
            hactx

theorem inv_job_progress (now : Int) (jid : Nat) (pct : Option PyFloat) (eta : Option Int)
    (tail : Option String) (s : St) (hInv : Inv s) :
    Inv (job_progress now jid pct eta tail s).1 := by
  cases hfind : findJob s jid with
  | none =>
    simp only [job_progress, hfind]
    exact hInv
  | some j =>
    simp only [job_progress, hfind]
    obtain ⟨hA, hP, hN, hB⟩ := hInv
    have hf : ∀ x : Job, (progressUpd now pct eta tail x).isActive = x.isActive ∧
        (progressUpd now pct eta tail x).itemId = x.itemId := fun x => ⟨rfl, rfl⟩
    refine ⟨?_, ?_, hN, hB⟩
    · show (activeItemIds (updateFirstBy (fun x => x.id == jid)
        (progressUpd now pct eta tail) s.jobs)).Nodup
      rw [activeItemIds_updateFirstBy_pres hf]
      exact hA
    · exact activeProc_updateFirstBy_jobs hP hf

theorem inv_finish_job (s : St) (jid : Nat) (fj : Job → Job) (fi : Item → Item)
    (hfj_inact : ∀ x, (fj x).isActive = false)
    (hfi_id : ∀ x, (fi x).id = x.id)
    (hInv : Inv s) {j : Job} (hfind : findJob s jid = some j) (hact : j.isActive = true) :
    Inv { s with jobs := updateFirstBy (fun x => x.id == jid) fj s.jobs,
                 items := updateFirstBy (fun x => x.id == j.itemId) fi s.items } := by
  obtain ⟨hA, hP, hN, hB⟩ := hInv
  obtain ⟨l1, l2, hsplit, hl1, hpj, hupd⟩ := find?_decomp hfind
  have horig : activeItemIds s.jobs = activeItemIds l1 ++ j.itemId :: activeItemIds l2 := by
    rw [hsplit]
    exact activeItemIds_middle l1 l2 hact
  have hAn : (activeItemIds l1 ++ j.itemId :: activeItemIds l2).Nodup := by
    have h0 : (activeItemIds s.jobs).Nodup := hA
    rwa [horig] at h0
  have hnotin1 : j.itemId ∉ activeItemIds l1 := fun hm =>
    (List.nodup_append.mp hAn).2.2 hm (List.mem_cons_self _ _)
  have hnotin2 : j.itemId ∉ activeItemIds l2 :=
    (List.nodup_cons.mp (List.nodup_append.mp hAn).2.1).1
  refine ⟨?_, ?_, ?_, ?_⟩
  · show (activeItemIds (updateFirstBy (fun x => x.id == jid) fj s.jobs)).Nodup
    rw [hupd fj, activeItemIds_middle_inactive l1 l2 (hfj_inact j)]
    exact List.Nodup.sublist
      (List.Sublist.append_left (List.sublist_cons_self _ _) _) hAn
  · intro x hx hactx
    show ∃ it ∈ updateFirstBy (fun y => y.id == j.itemId) fi s.items,
      it.id = x.itemId ∧ it.status = IStatus.processing
    rw [hupd fj] at hx
    have hxmem : x ∈ l1 ∨ x ∈ l2 := by
      rcases List.mem_append.mp hx with h1 | h1
      · exact Or.inl h1
      · rcases List.mem_cons.mp h1 with rfl | h2
        · rw [hfj_inact j] at hactx
          cases hactx
        · exact Or.inr h2
    have hxjobs : x ∈ s.jobs := by
      rw [hsplit]
      rcases hxmem with h | h
      · exact List.mem_append_left _ h
      · exact List.mem_append_right _ (List.mem_cons_of_mem _ h)
    obtain ⟨itw, hitw, hid, hst⟩ := hP x hxjobs hactx
    have hne : x.itemId ≠ j.itemId := by
      intro hcontra
      rcases hxmem with h | h
      · exact hnotin1 (hcontra ▸ mem_activeItemIds.mpr ⟨x, h, hactx, rfl⟩)
      · exact hnotin2 (hcontra ▸ mem_activeItemIds.mpr ⟨x, h, hactx, rfl⟩)
    have hpw : (itw.id == j.itemId) = false := by
      rw [beq_eq_false_iff_ne]
      rw [hid]
      exact hne
    exact ⟨itw, mem_updateFirstBy_of_not hitw hpw, hid, hst⟩
  · show ((updateFirstBy (fun y => y.id == j.itemId) fi s.items).map (fun it : Item => it.id)).Nodup
    rw [map_updateFirstBy (fun it : Item => it.id) hfi_id]
    exact hN
  · intro x hx
    obtain ⟨y, hy, hxy⟩ := mem_updateFirstBy hx
    rcases hxy with rfl | rfl
    · exact hB _ hy
    · rw [hfi_id]
      exact hB _ hy

theorem inv_job_complete (now : Int) (jid : Nat) (s : St) (hInv : Inv s)
    (hg : goodEvB s (Ev.complete jid) = true) : Inv (job_complete now jid s).1 := by
  cases hfind : findJob s jid with
  | none =>
    simp only [job_complete, hfind]
    exact hInv
  | some j =>
    have hact : j.isActive = true := by simpa [goodEvB, hfind] using hg
    cases hfindi : findItem s j.itemId with
    | none =>
      simp only [job_complete, hfind, hfindi]
      exact hInv
    | some it =>
      simp only [job_complete, hfind, hfindi]
      exact inv_finish_job s jid (completeJobUpd now) (completeItemUpd now)
        (fun x => rfl) (fun x => rfl) ⟨hInv.1, hInv.2.1, hInv.2.2.1, hInv.2.2.2⟩ hfind hact

theorem inv_job_fail (now : Int) (jid : Nat) (err : Option String) (s : St) (hInv : Inv s)
    (hg : goodEvB s (Ev.fail jid err) = true) : Inv (job_fail now jid err s).1 := by
  cases hfind : findJob s jid with
  | none =>
    simp only [job_fail, hfind]
    exact hInv
  | some j =>
    have hact : j.isActive = true := by simpa [goodEvB, hfind] using hg
    cases hfindi : findItem s j.itemId with
    | none =>
      simp only [job_fail, hfind, hfindi]
      exact hInv
    | some it =>
      simp only [job_fail, hfind, hfindi]
      exact inv_finish_job s jid (failJobUpd now (err.getD "")) (failedItemUpd (err.getD ""))
        (fun x => rfl) (fun x => rfl) ⟨hInv.1, hInv.2.1, hInv.2.2.1, hInv.2.2.2⟩ hfind hact

theorem inv_cancel_all (now : Int) (s : St) (hInv : Inv s) : Inv (cancel_all_jobs now s).1 := by
  obtain ⟨hA, hP, hN, hB⟩ := hInv
  have hf : ∀ x : Job, ((if x.isActive then cancelUpd now x else x)).isActive = x.isActive ∧
      ((if x.isActive then cancelUpd now x else x)).itemId = x.itemId := by
    intro x
    by_cases hx : x.isActive = true
    · rw [if_pos hx]
      exact ⟨rfl, rfl⟩
    · rw [if_neg hx]
      exact ⟨rfl, rfl⟩
  refine ⟨?_, ?_, hN, hB⟩
  · show (activeItemIds (s.jobs.map (fun x => if x.isActive then cancelUpd now x else x))).Nodup
    rw [activeItemIds_map_pres _ hf]
    exact hA
  · intro x hx hactx
    obtain ⟨y, hy, rfl⟩ := List.mem_map.mp hx
    have hyact : y.isActive = true := by rw [← (hf y).1]; exact hactx
    obtain ⟨it, hit, hid, hst⟩ := hP y hy hyact
    refine ⟨it, hit, ?_, hst⟩
    rw [(hf y).2]
    exact hid

theorem inv_delete_job (jid : Nat) (s : St) (hInv : Inv s) : Inv (delete_job jid s).1 := by
  cases hfind : findJob s jid with
  | none =>
    simp only [delete_job, hfind]
    exact hInv
  | some j =>
    by_cases hact : j.isActive = true
    · simp only [delete_job, hfind, hact, if_true]
      obtain ⟨hA, hP, hN, hB⟩ := hInv
      have hf : ∀ x : Job, (setCancel x).isActive = x.isActive ∧
          (setCancel x).itemId = x.itemId := fun x => ⟨rfl, rfl⟩
      refine ⟨?_, ?_, hN, hB⟩
      · show (activeItemIds (updateFirstBy (fun x => x.id == jid) setCancel s.jobs)).Nodup
        rw [activeItemIds_updateFirstBy_pres hf]
        exact hA
      · exact activeProc_updateFirstBy_jobs hP hf
    · have hact' : j.isActive = false := by simpa using hact
      simp only [delete_job, hfind, hact', Bool.false_eq_true, if_false]
      obtain ⟨hA, hP, hN, hB⟩ := hInv
      have hgid : ∀ x : Item,
          ((if x.lastJobId == some jid then { x with lastJobId := none } else x)).id = x.id ∧
          ((if x.lastJobId == some jid then { x with lastJobId := none } else x)).status =
            x.status := by
        intro x
        split
        · exact ⟨rfl, rfl⟩
        · exact ⟨rfl, rfl⟩
      refine ⟨?_, ?_, ?_, ?_⟩
      · show (activeItemIds (s.jobs.filter (fun x => !(x.id == jid)))).Nodup
        exact List.Nodup.sublist (activeItemIds_sublist (List.filter_sublist _)) hA
      · intro x hx hactx
        have hxjobs : x ∈ s.jobs := (List.mem_filter.mp hx).1
        obtain ⟨itw, hitw, hid, hst⟩ := hP x hxjobs hactx
        refine ⟨(if itw.lastJobId == some jid then { itw with lastJobId := none } else itw),
          List.mem_map_of_mem _ hitw, ?_, ?_⟩
        · rw [(hgid itw).1]
          exact hid
        · rw [(hgid itw).2]
          exact hst
      · show ((s.items.map fun it =>
          if it.lastJobId == some jid then { it with lastJobId := none } else it).map
            (fun it => it.id)).Nodup
        rw [List.map_map]
        have : ((fun it : Item => it.id) ∘ fun it : Item =>
            if it.lastJobId == some jid then { it with lastJobId := none } else it) =
            fun it : Item => it.id := by
          funext x
          exact (hgid x).1
        rw [this]
        exact hN
      · intro x hx
        obtain ⟨y, hy, rfl⟩ := List.mem_map.mp hx
        rw [(hgid y).1]
        exact hB y hy

theorem inv_cleanup (now : Int) (s : St) (hInv : Inv s) : Inv (cleanup_stale_jobs now s) := by
  obtain ⟨hA, hP, hN, hB⟩ := hInv
  refine ⟨?_, ?_, ?_, ?_⟩
  · show (activeItemIds (s.jobs.map (cleanupJob now s.workers))).Nodup
    exact List.Nodup.sublist
      (activeItemIds_map_deact _ (fun j hja => cleanupJob_active_imp_eq hja) _) hA
  · intro x hx hactx
    obtain ⟨y, hy, rfl⟩ := List.mem_map.mp hx
    have hyeq : cleanupJob now s.workers y = y := cleanupJob_active_imp_eq hactx
    rw [hyeq] at hactx ⊢
    obtain ⟨itw, hitw, hid, hst⟩ := hP y hy hactx
    have hynone : staleCheck now s.workers y = none := by
      cases hc : staleCheck now s.workers y with
      | none => rfl
      | some age =>
        rw [cleanupJob_of_some hc] at hyeq
        have : (staleFailJob now age y).isActive = true := by rw [hyeq]; exact hactx
        rw [staleFailJob_not_active] at this
        cases this
    refine ⟨itw, ?_, hid, hst⟩
    apply mem_cleanupItems_of_not_touched hitw
    intro j2 hj2 b hb hcontra
    have hj2act : j2.isActive = true := staleCheck_isActive hb
    have : j2 = y := active_inj hA j2 hj2 y hy hj2act hactx (by rw [hcontra, hid])
    rw [this, hynone] at hb
    cases hb
  · show ((cleanupItems now s.workers s.jobs s.items).map (fun it : Item => it.id)).Nodup
    rw [cleanupItems_map_id]
    exact hN
  · intro it' hit'
    have hmm : it'.id ∈ (cleanupItems now s.workers s.jobs s.items).map (fun it : Item => it.id) :=
      List.mem_map_of_mem _ hit'
    rw [cleanupItems_map_id] at hmm
    obtain ⟨it0, hit0, heq⟩ := List.mem_map.mp hmm
    rw [← heq]
    exact hB it0 hit0

theorem inv_prune (now : Int) (s : St) (hInv : Inv s) : Inv (prune_old_jobs now s) := by
  unfold prune_old_jobs
  by_cases hlen : s.jobs.length ≤ 100
  · simp only [hlen, if_true]
    exact hInv
  · simp only [hlen, if_false]
    by_cases hc : ((s.jobs.filter fun j => j.isActive) ++
        (sortFinishedDesc (s.jobs.filter fun j => !j.isActive)).foldl (keepStep now) []).length <
        s.jobs.length
    · simp only [hc, if_true]
      obtain ⟨hA, hP, hN, hB⟩ := hInv
      have hkept : ∀ x ∈ (sortFinishedDesc (s.jobs.filter fun j => !j.isActive)).foldl
          (keepStep now) [], x.isActive = false := by
        intro x hx
        rcases mem_foldl_keepStep hx with h | h
        · cases h
        · have := (List.mem_filter.mp (mem_sortFinishedDesc h)).2
          rwa [Bool.not_eq_true'] at this
      refine ⟨?_, ?_, hN, hB⟩
      · show (activeItemIds ((s.jobs.filter fun j => j.isActive) ++ _)).Nodup
        rw [activeItemIds_append, activeItemIds_filter_active,
          activeItemIds_eq_nil hkept, List.append_nil]
        exact hA
      · intro x hx hactx
        rcases List.mem_append.mp hx with h | h
        · exact hP x (List.mem_filter.mp h).1 hactx
        · rw [hkept x h] at hactx
          cases hactx
    · simp only [hc, if_false]
      exact hInv

theorem mkClaimJob_isActive (now : Int) (jobId itemId wkid : Nat) :
    (mkClaimJob now jobId itemId wkid).isActive = true := rfl

theorem inv_claim_commit (s1 : St) (it : Item) (wkid : Nat) (now : Int)
    (hInv : Inv s1)
    (hfind : s1.items.find? (fun x => x.ready && x.status == IStatus.queued) = some it) :
    Inv { s1 with
      jobs := s1.jobs ++ [mkClaimJob now s1.nextId it.id wkid],
      items := updateFirstBy (fun x => x.ready && x.status == IStatus.queued)
        (claimItemUpd s1.nextId) s1.items,
      nextId := s1.nextId + 1 } := by
  obtain ⟨hA, hP, hN, hB⟩ := hInv
  have hit_mem : it ∈ s1.items := List.mem_of_find?_eq_some hfind
  have hpit0 := List.find?_some hfind
  have hpit : (it.ready && (it.status == IStatus.queued)) = true := hpit0
  have hit_queued : it.status = IStatus.queued := by
    rw [Bool.and_eq_true] at hpit
    exact eq_of_beq hpit.2
  have hnotactive : it.id ∉ activeItemIds s1.jobs := by
    intro hmem
    obtain ⟨j2, hj2, hact2, hid2⟩ := mem_activeItemIds.mp hmem
    obtain ⟨itw, hitw, hidw, hstw⟩ := hP j2 hj2 hact2
    have heq : itw = it := same_id_eq hN hitw hit_mem (by rw [hidw, hid2])
    rw [heq, hit_queued] at hstw
    cases hstw
  obtain ⟨L1, L2, hsplit, hL1, hpitL, hupd⟩ := find?_decomp hfind
  refine ⟨?_, ?_, ?_, ?_⟩
  · show (activeItemIds (s1.jobs ++ [mkClaimJob now s1.nextId it.id wkid])).Nodup
    rw [activeItemIds_append]
    refine List.Nodup.append hA ?_ ?_
    · exact List.nodup_singleton it.id
    · intro a ha hb
      have ha2 : a = it.id := List.mem_singleton.mp hb
      exact hnotactive (ha2 ▸ ha)
  · intro x hx hactx
    rcases List.mem_append.mp hx with h1 | h1
    · obtain ⟨itw, hitw, hidw, hstw⟩ := hP x h1 hactx
      have hpw : (itw.ready && (itw.status == IStatus.queued)) = false := by
        simp [hstw]
      exact ⟨itw, mem_updateFirstBy_of_not hitw hpw, hidw, hstw⟩
    · rcases List.mem_singleton.mp h1 with rfl
      refine ⟨claimItemUpd s1.nextId it, ?_, rfl, rfl⟩
      rw [hupd (claimItemUpd s1.nextId)]
      exact List.mem_append_right _ (List.mem_cons_self _ _)
  · show ((updateFirstBy (fun x => x.ready && x.status == IStatus.queued)
      (claimItemUpd s1.nextId) s1.items).map (fun it : Item => it.id)).Nodup
    rw [map_updateFirstBy (fun it : Item => it.id)
      (fun x => (rfl : (claimItemUpd s1.nextId x).id = x.id))]
    exact hN
  · intro x hx
    obtain ⟨y, hy, hxy⟩ := mem_updateFirstBy hx
    rcases hxy with rfl | rfl
    · exact Nat.lt_succ_of_lt (hB _ hy)
    · show (claimItemUpd s1.nextId y).id < s1.nextId + 1
      have h0 : (claimItemUpd s1.nextId y).id = y.id := rfl
      rw [h0]
      exact Nat.lt_succ_of_lt (hB _ hy)

theorem inv_claim (now : Int) (wid : Option Nat) (wname : Option String) (s0 : St)
    (hInv : Inv s0) : Inv (claim_job now wid wname s0).1 := by
  have hs1 : Inv (claimUpsert now wid wname (cleanup_stale_jobs now s0)).1 :=
    inv_of_fields (claimUpsert_items _ _ _ _) (claimUpsert_jobs _ _ _ _)
      (claimUpsert_nextId_ge _ _ _ _) (inv_cleanup now s0 hInv)
  cases hfind : ((claimUpsert now wid wname (cleanup_stale_jobs now s0)).1).items.find?
      (fun it => it.ready && it.status == IStatus.queued) with
  | none =>
    simp only [claim_job, hfind]
    exact hs1
  | some it =>
    simp only [claim_job, hfind]
    exact inv_claim_commit _ it _ now hs1 hfind

theorem inv_step (now : Int) (e : Ev) (s : St) (hInv : Inv s)
    (hg : goodEvB s e = true) : Inv (applyEv now e s) := by
  cases e with
  | scanAdd eid => exact inv_scanAdd eid s hInv
  | ready iid b => exact inv_set_ready iid b s hInv
  | reset iid => exact inv_reset_item iid s hInv
  | delItem iid => exact inv_delete_item iid s hInv
  | claim wid wname => exact inv_claim now wid wname s hInv
  | start jid => exact inv_job_start now jid s hInv hg
  | progress jid pct eta tail => exact inv_job_progress now jid pct eta tail s hInv
  | complete jid => exact inv_job_complete now jid s hInv hg
  | fail jid err => exact inv_job_fail now jid err s hInv hg
  | cancelAll => exact inv_cancel_all now s hInv
  | delJob jid => exact inv_delete_job jid s hInv
  | cleanup => exact inv_cleanup now s hInv
  | prune => exact inv_prune now s hInv

theorem inv_init : Inv initSt := by
  refine ⟨List.nodup_nil, ?_, List.nodup_nil, ?_⟩
  · intro j hj
    cases hj
  · intro it hit
    cases hit

theorem inv_trace : ∀ (tr : List (Int × Ev)) (s : St), Inv s → goodTrace s tr = true →
    Inv (applyTrace s tr) := by
  intro tr
  induction tr with
  | nil =>
    intro s hInv _
    exact hInv
  | cons te tr ih =>
    intro s hInv hg
    obtain ⟨t, e⟩ := te
    rw [goodTrace, Bool.and_eq_true] at hg
    exact ih _ (inv_step t e s hInv hg.1) hg.2

set_option maxRecDepth 10000 in
/-- C1 counterexample: the trace c1BadTrace consists only of coordinator
operations (scan, ready, claim, complete, ready, claim, start) applied from
the empty initial state, so its final state is reachable; yet after the
replayed start of the already-finished job, two jobs (one running, one
claimed) are simultaneously active on item 0, violating the at-most-one
invariant. -/
theorem c1_counterexample :
    ¬ AtMostOneActive (applyTrace initSt c1BadTrace) ∧
    ((applyTrace initSt c1BadTrace).jobs.filter
      (fun j => j.isActive && (j.itemId == 0))).length = 2 := by
  constructor
  · intro h
    have h2 : (activeItemIds (applyTrace initSt c1BadTrace).jobs).Nodup := h
    revert h2
    decide
  · decide

/-- C1 amended: along every trace of coordinator operations from the initial
state in which start/complete/fail only ever target a job that is still
non-terminal, every reached state has at most one active (claimed/running)
job per item. -/
theorem c1_amended (tr : List (Int × Ev)) (h : goodTrace initSt tr = true) :
    AtMostOneActive (applyTrace initSt tr) :=
  (inv_trace tr initSt inv_init h).1

set_option maxRecDepth 10000 in
/-- Witness for C1 amended: the well-behaved trace (no replayed start) is
good, and the theorem yields the invariant at its final state. -/
theorem c1_witness :
    goodTrace initSt c1GoodTrace = true ∧
    AtMostOneActive (applyTrace initSt c1GoodTrace) :=
  ⟨by decide, c1_amended c1GoodTrace (by decide)⟩

end MediaSS
